import Mathlib

/-!
Verification of the MillenniumDB property-path evaluation operator
(`PropertyPathBFSSimpleEnum`) and of the constant scan range (`Term`).

The BFS engine is shallowly embedded as a pure, fuel-indexed state machine:
the graph is the set of stored (from, type, to, edge) quads reachable through
the `type_from_to_edge` / `to_type_from_edge` indexes, the automaton is the
compiled path automaton, and a search state is a (node, automaton-state) pair
exactly as described in the class documentation.  The engine bodies
(`begin`, `next`, `set_iter`) are modelled from the specification, since only
the class header survives in the repository.
-/

namespace PropertyPathBFS

/-- A stored edge quad (from, type, to, edge id), an entry of the
`type_from_to_edge` connections B+ tree. -/
structure Edge where
  efrom : Nat
  etype : Nat
  eto   : Nat
  eid   : Nat
deriving DecidableEq, Repr

/-- The graph: the `nodes` B+ tree (all node ids) and the connections B+ tree. -/
structure Graph where
  nodeList : List Nat
  edges    : List Edge
deriving DecidableEq, Repr

/-- An automaton transition: source state, edge label, direction flag
(`inverse = true` means the edge is traversed in reverse, via `to_type_from_edge`),
and target state. -/
structure TransitionId where
  source  : Nat
  label   : Nat
  inverse : Bool
  target  : Nat
deriving DecidableEq, Repr

/-- The path automaton compiled from the path regular expression:
states, an initial state, accepting states and labeled directed transitions. -/
structure PathAutomaton where
  states      : List Nat
  initial     : Nat
  finals      : List Nat
  transitions : List TransitionId
deriving DecidableEq, Repr

/-- A search state: a (node id, automaton state) pair, with structural equality. -/
structure SearchState where
  node   : Nat
  astate : Nat
deriving DecidableEq, Repr

/-- Modelled from the spec: the forward range index keyed by (label, from),
yielding (to, edge id) pairs — a `type_from_to_edge` range scan.  The index
implementation itself is not part of the surviving fragment. -/
def scanForward (g : Graph) (l n : Nat) : List (Nat × Nat) :=
  (g.edges.filter (fun e => e.etype = l ∧ e.efrom = n)).map (fun e => (e.eto, e.eid))

/-- Modelled from the spec: the backward range index keyed by (label, to),
yielding (from, edge id) pairs — a `to_type_from_edge` range scan. -/
def scanBackward (g : Graph) (l n : Nat) : List (Nat × Nat) :=
  (g.edges.filter (fun e => e.etype = l ∧ e.eto = n)).map (fun e => (e.efrom, e.eid))

/-- Modelled from the spec: `set_iter(transition, current_state)` — the range
scan consulted for one transition at a given node, choosing the forward or
backward index according to the transition's direction flag. -/
def setIter (g : Graph) (t : TransitionId) (n : Nat) : List (Nat × Nat) :=
  if t.inverse then scanBackward g t.label n else scanForward g t.label n

/-- All (transition, neighbor node) pairs explored when expanding one search
state: for each outgoing transition of the automaton state, every node yielded
by the corresponding index range scan. -/
def expansionList (g : Graph) (a : PathAutomaton) (cur : SearchState) :
    List (TransitionId × Nat) :=
  (a.transitions.filter (fun t => t.source = cur.astate)).flatMap
    (fun t => (setIter g t cur.node).map (fun p => (t, p.1)))

/-- The successor search states of one search state in the product
(node, automaton-state) graph described in the class documentation. -/
def stepList (g : Graph) (a : PathAutomaton) (cur : SearchState) : List SearchState :=
  (expansionList g a cur).map (fun tm => ⟨tm.2, tm.1.target⟩)

/-- Reachability in the product graph. -/
def Reach (g : Graph) (a : PathAutomaton) : SearchState → SearchState → Prop :=
  Relation.ReflTransGen (fun x y => y ∈ stepList g a x)

/-- `Accepted g a s0 m`: there is a label path from `s0` to `m` whose label
sequence is accepted by the automaton, i.e. a path in the product graph from
(s0, initial state) to (m, q) for some accepting state q. -/
def Accepted (g : Graph) (a : PathAutomaton) (s0 m : Nat) : Prop :=
  ∃ q, q ∈ a.finals ∧ Reach g a ⟨s0, a.initial⟩ ⟨m, q⟩

/-- One answer published by `next()`: the end node id written to the `end`
variable, and the node ids written to the path variable (empty for the
zero-length self answer). -/
structure Answer where
  endNode   : Nat
  pathNodes : List Nat
deriving DecidableEq, Repr

/-- The BFS structures of the engine: the `visited` set of search states, the
`open` FIFO queue (head is the front), and the set of end nodes already
produced as answers. -/
structure BfsState where
  visited  : List SearchState
  openQ    : List SearchState
  answered : List Nat
deriving DecidableEq, Repr

/-- Modelled from the spec: processing of one (transition, neighbor) pair during
the expansion of a search state.  If the reached search state is not yet
visited it is marked visited and enqueued; if moreover its automaton state is
accepting and its node has not been output before, the node becomes a new
answer (answers are produced at most once per distinct end node). -/
def exploreNeighbor (a : PathAutomaton) (acc : BfsState × List Answer)
    (tm : TransitionId × Nat) : BfsState × List Answer :=
  let st := acc.1
  let y : SearchState := ⟨tm.2, tm.1.target⟩
  if y ∈ st.visited then acc
  else
    let st1 : BfsState :=
      { st with visited := y :: st.visited, openQ := st.openQ ++ [y] }
    if y.astate ∈ a.finals ∧ y.node ∉ st1.answered then
      ({ st1 with answered := y.node :: st1.answered },
        acc.2 ++ [⟨y.node, [y.node]⟩])
    else (st1, acc.2)

/-- Modelled from the spec: full expansion of one dequeued search state — every
outgoing transition's range scan is drained and every reached neighbor is
processed.  Returns the new BFS structures and the answers produced. -/
def expandState (g : Graph) (a : PathAutomaton) (st : BfsState)
    (cur : SearchState) : BfsState × List Answer :=
  (expansionList g a cur).foldl (exploreNeighbor a) (st, [])

/-- The node universe used to bound the search: every node occurring as an
endpoint of a stored edge. -/
def edgeNodes (g : Graph) : List Nat :=
  g.edges.map (·.efrom) ++ g.edges.map (·.eto)

/-- The search-state universe every newly enqueued state belongs to. -/
def coreUniv (g : Graph) (a : PathAutomaton) : List SearchState :=
  ((edgeNodes g).product (a.transitions.map (·.target))).map
    (fun p => ⟨p.1, p.2⟩)

/-- Fuel measure for the BFS loop: queue length plus the number of
still-unvisited universe states.  Every expansion step strictly decreases it. -/
def bfsMeasure (g : Graph) (a : PathAutomaton) (st : BfsState) : Nat :=
  st.openQ.length + ((coreUniv g a).filter (fun x => x ∉ st.visited)).length

/-- The result of draining the whole frontier: all answers produced, the
sequence of search states dequeued for expansion, and the final BFS state. -/
structure DrainRes where
  outs  : List Answer
  trace : List SearchState
  final : BfsState
deriving DecidableEq, Repr

/-- Fuel-indexed full BFS drain: repeatedly dequeue the front of the frontier
and expand it, collecting produced answers and the dequeue trace. -/
def drainF (g : Graph) (a : PathAutomaton) : Nat → BfsState → DrainRes
  | 0, st => ⟨[], [], st⟩
  | fuel + 1, st =>
    match st.openQ with
    | [] => ⟨[], [], st⟩
    | cur :: rest =>
      let r := expandState g a { st with openQ := rest } cur
      let d := drainF g a fuel r.1
      ⟨r.2 ++ d.outs, cur :: d.trace, d.final⟩

/-- The full BFS drain, with sufficient fuel baked in. -/
def drainAll (g : Graph) (a : PathAutomaton) (st : BfsState) : DrainRes :=
  drainF g a (bfsMeasure g a st) st

/-- The private state of the operator between two `next()` calls: the resolved
start node, the pending zero-length self answer (`is_first`), the BFS
structures, and the buffered answers produced by the last expansion but not yet
returned. -/
structure Config where
  startNode   : Nat
  pendingSelf : Bool
  bfs         : BfsState
  pending     : List Answer
deriving DecidableEq, Repr

/-- Modelled from the spec: the BFS loop inside one `next()` call — dequeue and
expand frontier states until an answer is produced (returned immediately, the
rest buffered) or the frontier empties (exhaustion). -/
def nextLoopF (g : Graph) (a : PathAutomaton) : Nat → Config → Option Answer × Config
  | 0, cfg => (none, cfg)
  | fuel + 1, cfg =>
    match cfg.bfs.openQ with
    | [] => (none, cfg)
    | cur :: rest =>
      let r := expandState g a { cfg.bfs with openQ := rest } cur
      match r.2 with
      | [] => nextLoopF g a fuel { cfg with bfs := r.1 }
      | ans :: restOuts => (some ans, { cfg with bfs := r.1, pending := restOuts })

/-- Modelled from the spec: one `next()` call.  A pending self answer is emitted
first (end bound to the start node, path variable cleared to the empty path);
then buffered answers; then the BFS loop runs.  Returns `none` when exhausted. -/
def nextCall (g : Graph) (a : PathAutomaton) (cfg : Config) : Option Answer × Config :=
  if cfg.pendingSelf then
    (some ⟨cfg.startNode, []⟩, { cfg with pendingSelf := false })
  else
    match cfg.pending with
    | ans :: rest => (some ans, { cfg with pending := rest })
    | [] => nextLoopF g a (bfsMeasure g a cfg.bfs) cfg

/-- Modelled from the spec: the engine state right after `begin` has resolved
the start node: `is_first` is set iff the initial automaton state is accepting,
the search state (start, initial) is enqueued and marked visited, and when
`is_first` is set the start node's single output eligibility is consumed by the
pending self answer. -/
def beginRes (a : PathAutomaton) (s0 : Nat) : Config :=
  let isFirst := a.initial ∈ a.finals
  { startNode := s0
    pendingSelf := isFirst
    bfs := { visited := [⟨s0, a.initial⟩]
             openQ := [⟨s0, a.initial⟩]
             answered := if isFirst then [s0] else [] }
    pending := [] }

/-- The start identity: a fixed constant node id, or a variable slot resolved
from the incoming binding (`std::variant<VarId, ObjectId>`). -/
inductive StartId where
  | varId (v : Nat)
  | constId (c : Nat)
deriving DecidableEq, Repr

/-- The permanently exhausted configuration produced by `begin` when a constant
start node is absent from the node index. -/
def exhaustedConfig (c : Nat) : Config :=
  { startNode := c, pendingSelf := false
    bfs := { visited := [], openQ := [], answered := [] }, pending := [] }

/-- Modelled from the spec: `begin(binding)` — resolves the start id (from the
constant or from the binding slot), fails fast into the exhausted state when a
constant start node does not exist in the node index, and aborts (`none`) on
the caller contract violation of an unset upstream variable. -/
def beginOp (g : Graph) (a : PathAutomaton) (start : StartId)
    (binding : Nat → Option Nat) : Option Config :=
  match start with
  | .constId c =>
    if c ∈ g.nodeList then some (beginRes a c) else some (exhaustedConfig c)
  | .varId v => (binding v).map (fun n => beginRes a n)

/-- The answers returned by the first `k` calls to `next()`, stopping at the
first call that returns false. -/
def callsOutput (g : Graph) (a : PathAutomaton) : Nat → Config → List Answer
  | 0, _ => []
  | k + 1, cfg =>
    match nextCall g a cfg with
    | (none, _) => []
    | (some ans, cfg') => ans :: callsOutput g a k cfg'

/-- A number of `next()` calls sufficient to exhaust one enumeration. -/
def enumBudget (g : Graph) (a : PathAutomaton) (s0 : Nat) : Nat :=
  bfsMeasure g a (beginRes a s0).bfs + 2

/-- One full enumeration: the answers of repeated `next()` calls after
`begin` resolved the start node to `s0`, up to the first false. -/
def enumOutputs (g : Graph) (a : PathAutomaton) (s0 : Nat) : List Answer :=
  callsOutput g a (enumBudget g a s0) (beginRes a s0)

/-- The end node ids of one full enumeration. -/
def enumEnds (g : Graph) (a : PathAutomaton) (s0 : Nat) : List Nat :=
  (enumOutputs g a s0).map (·.endNode)

/-- The automaton for the pattern `=[:l*]=>` evaluated start to end: one state,
accepting and initial, with a forward self transition labeled `l`. -/
def starAut (l : Nat) : PathAutomaton :=
  { states := [0], initial := 0, finals := [0]
    transitions := [⟨0, l, false, 0⟩] }

/-- The inverse automaton `=[(^:l)*]=>` used after rewriting an end-anchored
pattern: the same shape with the direction flag inverted, so `l`-typed edges
are traversed in reverse. -/
def starAutRev (l : Nat) : PathAutomaton :=
  { states := [0], initial := 0, finals := [0]
    transitions := [⟨0, l, true, 0⟩] }

/-- A single `l`-labeled stored edge from `u` to `v`. -/
def EdgeRel (g : Graph) (l u v : Nat) : Prop :=
  ∃ e ∈ g.edges, e.etype = l ∧ e.efrom = u ∧ e.eto = v

/-- The three-node cycle used as a concrete instance: nodes 0, 1, 2 and edges
0 → 1 → 2 → 0, all labeled 7. -/
def sampleGraph : Graph :=
  ⟨[0, 1, 2], [⟨0, 7, 1, 100⟩, ⟨1, 7, 2, 101⟩, ⟨2, 7, 0, 102⟩]⟩

/-- Layered reachable-set iteration in the product graph, used to define the
BFS distance of a search state from the search root. -/
def reachSet (g : Graph) (a : PathAutomaton) (root : SearchState) : Nat → List SearchState
  | 0 => [root]
  | n + 1 =>
    let prev := reachSet g a root n
    prev ++ ((prev.flatMap (stepList g a)).filter (fun y => y ∉ prev)).dedup

/-- A bound past which the reachable-set iteration has saturated. -/
def distBound (g : Graph) (a : PathAutomaton) : Nat :=
  (coreUniv g a).length + 1

/-- The predicate whose least witness is the BFS distance: the search state
lies in layer n of the reachable-set iteration, or n is past the saturation
bound (the escape value for unreachable states). -/
def distP (g : Graph) (a : PathAutomaton) (root x : SearchState) (n : Nat) : Prop :=
  x ∈ reachSet g a root n ∨ n = distBound g a + 1

instance distP_decidable (g : Graph) (a : PathAutomaton) (root x : SearchState) :
    DecidablePred (distP g a root x) := fun n =>
  inferInstanceAs (Decidable (x ∈ reachSet g a root n ∨ n = distBound g a + 1))

/-- The escape value always satisfies the distance predicate. -/
def distEvidence (g : Graph) (a : PathAutomaton) (root x : SearchState) :
    ∃ n, distP g a root x n :=
  ⟨distBound g a + 1, Or.inr rfl⟩

/-- The BFS distance of a search state from the search root: the least layer of
the reachable-set iteration containing it (saturation bound + 1 when
unreachable). -/
def bfsDist (g : Graph) (a : PathAutomaton) (root x : SearchState) : Nat :=
  Nat.find (distEvidence g a root x)

/-- Full description of the effect of folding `exploreNeighbor` over a list of
(transition, neighbor) pairs: `dv` is the list of newly visited (and enqueued)
search states in discovery order, `da` the list of newly produced end nodes in
production order. -/
def FoldSpec (a : PathAutomaton) (l : List (TransitionId × Nat)) (st : BfsState)
    (outs0 : List Answer) (dv : List SearchState) (da : List Nat) : Prop :=
  (l.foldl (exploreNeighbor a) (st, outs0)).1.visited = dv.reverse ++ st.visited ∧
  (l.foldl (exploreNeighbor a) (st, outs0)).1.openQ = st.openQ ++ dv ∧
  (l.foldl (exploreNeighbor a) (st, outs0)).1.answered = da.reverse ++ st.answered ∧
  (l.foldl (exploreNeighbor a) (st, outs0)).2 =
    outs0 ++ da.map (fun m => Answer.mk m [m]) ∧
  dv.Nodup ∧ da.Nodup ∧
  (∀ y ∈ dv, y ∉ st.visited ∧ ∃ tm ∈ l, y = SearchState.mk tm.2 tm.1.target) ∧
  (∀ m ∈ da, m ∉ st.answered ∧ ∃ y ∈ dv, y.node = m ∧ y.astate ∈ a.finals) ∧
  (∀ tm ∈ l,
    SearchState.mk tm.2 tm.1.target ∈ (l.foldl (exploreNeighbor a) (st, outs0)).1.visited) ∧
  (∀ y ∈ dv, y.astate ∈ a.finals → y.node ∈ (l.foldl (exploreNeighbor a) (st, outs0)).1.answered)

/-- The engine invariant maintained across BFS expansion: sets are duplicate
free, the frontier only holds visited states, every visited state is reachable
from the root search state, states no longer in the frontier are fully
expanded, and answered nodes correspond exactly to visited accepting states. -/
structure Inv (g : Graph) (a : PathAutomaton) (root : SearchState) (st : BfsState) : Prop where
  vis_nodup : st.visited.Nodup
  open_nodup : st.openQ.Nodup
  open_sub : ∀ x ∈ st.openQ, x ∈ st.visited
  root_vis : root ∈ st.visited
  vis_reach : ∀ x ∈ st.visited, Reach g a root x
  closed : ∀ x ∈ st.visited, x ∉ st.openQ → ∀ y ∈ stepList g a x, y ∈ st.visited
  ans_nodup : st.answered.Nodup
  ans_sound : ∀ m ∈ st.answered, ∃ q, q ∈ a.finals ∧ SearchState.mk m q ∈ st.visited
  vis_ans : ∀ x ∈ st.visited, x.astate ∈ a.finals → x.node ∈ st.answered

/-- Well-formedness of the stored graph: the node index is duplicate free and
every stored edge joins indexed nodes. -/
def WFGraph (g : Graph) : Prop :=
  g.nodeList.Nodup ∧ ∀ e ∈ g.edges, e.efrom ∈ g.nodeList ∧ e.eto ∈ g.nodeList

/-- Well-formedness of the automaton: the state list is duplicate free and
contains the initial state and all transition endpoints. -/
def WFAutomaton (a : PathAutomaton) : Prop :=
  a.states.Nodup ∧ a.initial ∈ a.states ∧
    ∀ t ∈ a.transitions, t.source ∈ a.states ∧ t.target ∈ a.states

/-- All (node, automaton state) pairs of a well-formed instance. -/
def stateProd (g : Graph) (a : PathAutomaton) : List SearchState :=
  (g.nodeList.product a.states).map (fun p => ⟨p.1, p.2⟩)

/-- BFS level invariant: frontier states are reachable with distances inside a
one-wide window [d, d+1] and in non-decreasing order, and every reachable state
at distance at most d has been visited. -/
def LevelInv (g : Graph) (a : PathAutomaton) (root : SearchState) (d : Nat)
    (st : BfsState) : Prop :=
  (∀ x ∈ st.openQ, Reach g a root x) ∧
  (∀ x ∈ st.openQ, d ≤ bfsDist g a root x ∧ bfsDist g a root x ≤ d + 1) ∧
  List.Pairwise (fun x y => bfsDist g a root x ≤ bfsDist g a root y) st.openQ ∧
  (∀ z, Reach g a root z → bfsDist g a root z ≤ d → z ∈ st.visited)

end PropertyPathBFS

namespace ScanRanges

/-- An object id (`ObjectId`), wrapping its `uint64_t id`. -/
structure ObjectId where
  id : Nat
deriving DecidableEq, Repr

/-- A binding row (`BindingId`): the variable slots shared across the operator
pipeline. -/
structure BindingId where
  slots : List (Option Nat)
deriving DecidableEq, Repr

/-- The constant scan range `Term`: a `ScanRange` wrapping a fixed `ObjectId`. -/
structure Term where
  object_id : ObjectId
deriving DecidableEq, Repr

/-- `Term::get_min`: returns `object_id.id`, ignoring the binding. -/
def Term.get_min (t : Term) (_ : BindingId) : Nat :=
  t.object_id.id

/-- `Term::get_max`: returns `object_id.id`, ignoring the binding. -/
def Term.get_max (t : Term) (_ : BindingId) : Nat :=
  t.object_id.id

/-- `Term::try_assign`: an empty body — the C++ member mutates neither the
binding nor the term, embedded as returning both unchanged. -/
def Term.try_assign (t : Term) (b : BindingId) (_ : ObjectId) : Term × BindingId :=
  (t, b)

end ScanRanges

namespace PropertyPathBFS

theorem exploreNeighbor_of_visited (a : PathAutomaton) (acc : BfsState × List Answer)
    (tm : TransitionId × Nat)
    (hv : (SearchState.mk tm.2 tm.1.target) ∈ acc.1.visited) :
    exploreNeighbor a acc tm = acc := by
  simp [exploreNeighbor, hv]

theorem exploreNeighbor_of_new_acc (a : PathAutomaton) (st : BfsState)
    (outs0 : List Answer) (tm : TransitionId × Nat)
    (hv : (SearchState.mk tm.2 tm.1.target) ∉ st.visited)
    (hf : tm.1.target ∈ a.finals ∧ tm.2 ∉ st.answered) :
    exploreNeighbor a (st, outs0) tm =
      ({ visited := SearchState.mk tm.2 tm.1.target :: st.visited
         openQ := st.openQ ++ [SearchState.mk tm.2 tm.1.target]
         answered := tm.2 :: st.answered },
       outs0 ++ [Answer.mk tm.2 [tm.2]]) := by
  simp [exploreNeighbor, hv, hf.1, hf.2]

theorem exploreNeighbor_of_new_rej (a : PathAutomaton) (st : BfsState)
    (outs0 : List Answer) (tm : TransitionId × Nat)
    (hv : (SearchState.mk tm.2 tm.1.target) ∉ st.visited)
    (hf : ¬(tm.1.target ∈ a.finals ∧ tm.2 ∉ st.answered)) :
    exploreNeighbor a (st, outs0) tm =
      ({ visited := SearchState.mk tm.2 tm.1.target :: st.visited
         openQ := st.openQ ++ [SearchState.mk tm.2 tm.1.target]
         answered := st.answered }, outs0) := by
  simp only [exploreNeighbor, if_neg hv]
  split
  · rename_i hc
    exact absurd ⟨hc.1, hc.2⟩ hf
  · rfl

theorem foldSpec_all (a : PathAutomaton) :
    ∀ (l : List (TransitionId × Nat)) (st : BfsState) (outs0 : List Answer),
      ∃ dv da, FoldSpec a l st outs0 dv da := by
  intro l
  induction l with
  | nil =>
    intro st outs0
    exact ⟨[], [], by simp [FoldSpec]⟩
  | cons tm l ih =>
    intro st outs0
    by_cases hv : (SearchState.mk tm.2 tm.1.target) ∈ st.visited
    · obtain ⟨dv, da, hs⟩ := ih st outs0
      obtain ⟨h1, h2, h3, h4, h5, h6, h7, h8, h9, h10⟩ := hs
      refine ⟨dv, da, ?_⟩
      unfold FoldSpec
      rw [List.foldl_cons, exploreNeighbor_of_visited a (st, outs0) tm hv]
      refine ⟨h1, h2, h3, h4, h5, h6, ?_, h8, ?_, h10⟩
      · intro y hy
        obtain ⟨hy1, tm', htm', hy2⟩ := h7 y hy
        exact ⟨hy1, tm', List.mem_cons_of_mem _ htm', hy2⟩
      · intro tm' htm'
        rcases List.mem_cons.1 htm' with h | h
        · subst h
          rw [h1]
          exact List.mem_append_right _ hv
        · exact h9 tm' h
    · by_cases hf : tm.1.target ∈ a.finals ∧ tm.2 ∉ st.answered
      · set y : SearchState := SearchState.mk tm.2 tm.1.target with hy_def
        set st1 : BfsState :=
          { visited := y :: st.visited
            openQ := st.openQ ++ [y]
            answered := tm.2 :: st.answered } with hst1
        obtain ⟨dv, da, hs⟩ := ih st1 (outs0 ++ [Answer.mk tm.2 [tm.2]])
        obtain ⟨h1, h2, h3, h4, h5, h6, h7, h8, h9, h10⟩ := hs
        refine ⟨y :: dv, tm.2 :: da, ?_⟩
        unfold FoldSpec
        rw [List.foldl_cons, exploreNeighbor_of_new_acc a st outs0 tm hv hf, ← hst1]
        have hyv : y ∈ (l.foldl (exploreNeighbor a) (st1, outs0 ++ [Answer.mk tm.2 [tm.2]])).1.visited := by
          rw [h1, hst1]
          simp
        refine ⟨?_, ?_, ?_, ?_, ?_, ?_, ?_, ?_, ?_, ?_⟩
        · rw [h1, hst1]; simp
        · rw [h2, hst1]; simp
        · rw [h3, hst1]; simp
        · rw [h4]; simp
        · refine List.nodup_cons.2 ⟨?_, h5⟩
          intro hyd
          exact ((h7 y hyd).1) (by rw [hst1]; exact List.mem_cons_self _ _)
        · refine List.nodup_cons.2 ⟨?_, h6⟩
          intro hmd
          exact ((h8 tm.2 hmd).1) (by rw [hst1]; exact List.mem_cons_self _ _)
        · intro z hz
          rcases List.mem_cons.1 hz with h | h
          · subst h
            exact ⟨hv, tm, List.mem_cons_self _ _, rfl⟩
          · obtain ⟨hz1, tm', htm', hz2⟩ := h7 z h
            refine ⟨?_, tm', List.mem_cons_of_mem _ htm', hz2⟩
            intro hc
            exact hz1 (by rw [hst1]; exact List.mem_cons_of_mem _ hc)
        · intro m hm
          rcases List.mem_cons.1 hm with h | h
          · subst h
            exact ⟨hf.2, y, List.mem_cons_self _ _, rfl, hf.1⟩
          · obtain ⟨hm1, z, hz, hz2⟩ := h8 m h
            refine ⟨?_, z, List.mem_cons_of_mem _ hz, hz2⟩
            intro hc
            exact hm1 (by rw [hst1]; exact List.mem_cons_of_mem _ hc)
        · intro tm' htm'
          rcases List.mem_cons.1 htm' with h | h
          · subst h; exact hyv
          · exact h9 tm' h
        · intro z hz hzf
          rcases List.mem_cons.1 hz with h | h
          · subst h
            rw [h3, hst1]
            exact List.mem_append_right _ (List.mem_cons_self _ _)
          · exact h10 z h hzf
      · set y : SearchState := SearchState.mk tm.2 tm.1.target with hy_def
        set st1 : BfsState :=
          { visited := y :: st.visited
            openQ := st.openQ ++ [y]
            answered := st.answered } with hst1
        obtain ⟨dv, da, hs⟩ := ih st1 outs0
        obtain ⟨h1, h2, h3, h4, h5, h6, h7, h8, h9, h10⟩ := hs
        refine ⟨y :: dv, da, ?_⟩
        unfold FoldSpec
        rw [List.foldl_cons, exploreNeighbor_of_new_rej a st outs0 tm hv hf, ← hst1]
        have hyv : y ∈ (l.foldl (exploreNeighbor a) (st1, outs0)).1.visited := by
          rw [h1, hst1]
          simp
        refine ⟨?_, ?_, ?_, h4, ?_, h6, ?_, ?_, ?_, ?_⟩
        · rw [h1, hst1]; simp
        · rw [h2, hst1]; simp
        · rw [h3, hst1]
        · refine List.nodup_cons.2 ⟨?_, h5⟩
          intro hyd
          exact ((h7 y hyd).1) (by rw [hst1]; exact List.mem_cons_self _ _)
        · intro z hz
          rcases List.mem_cons.1 hz with h | h
          · subst h
            exact ⟨hv, tm, List.mem_cons_self _ _, rfl⟩
          · obtain ⟨hz1, tm', htm', hz2⟩ := h7 z h
            refine ⟨?_, tm', List.mem_cons_of_mem _ htm', hz2⟩
            intro hc
            exact hz1 (by rw [hst1]; exact List.mem_cons_of_mem _ hc)
        · intro m hm
          obtain ⟨hm1, z, hz, hz2⟩ := h8 m hm
          exact ⟨hm1, z, List.mem_cons_of_mem _ hz, hz2⟩
        · intro tm' htm'
          rcases List.mem_cons.1 htm' with h | h
          · subst h; exact hyv
          · exact h9 tm' h
        · intro z hz hzf
          rcases List.mem_cons.1 hz with h | h
          · subst h
            have : y.astate ∈ a.finals → y.node ∈ st.answered := by
              intro hfin
              by_contra hna
              exact hf ⟨hfin, hna⟩
            rw [h3, hst1]
            exact List.mem_append_right _ (this hzf)
          · exact h10 z h hzf

theorem mem_expansionList {g : Graph} {a : PathAutomaton} {cur : SearchState}
    {tm : TransitionId × Nat} :
    tm ∈ expansionList g a cur ↔
      tm.1 ∈ a.transitions ∧ tm.1.source = cur.astate ∧
        ∃ eid, (tm.2, eid) ∈ setIter g tm.1 cur.node := by
  obtain ⟨t, m⟩ := tm
  simp only [expansionList, List.mem_flatMap, List.mem_filter, List.mem_map,
    decide_eq_true_eq, Prod.mk.injEq]
  constructor
  · rintro ⟨t', ⟨ht1, ht2⟩, p, hp, rfl, rfl⟩
    exact ⟨ht1, ht2, p.2, by simpa using hp⟩
  · rintro ⟨ht1, ht2, eid, hp⟩
    exact ⟨t, ⟨ht1, ht2⟩, (m, eid), hp, rfl, rfl⟩

theorem mem_stepList {g : Graph} {a : PathAutomaton} {cur y : SearchState} :
    y ∈ stepList g a cur ↔
      ∃ tm ∈ expansionList g a cur, y = SearchState.mk tm.2 tm.1.target := by
  simp only [stepList, List.mem_map]
  constructor
  · rintro ⟨tm, htm, rfl⟩
    exact ⟨tm, htm, rfl⟩
  · rintro ⟨tm, htm, rfl⟩
    exact ⟨tm, htm, rfl⟩

theorem mem_setIter_node {g : Graph} {t : TransitionId} {n m eid : Nat}
    (h : (m, eid) ∈ setIter g t n) : m ∈ edgeNodes g := by
  unfold setIter at h
  unfold edgeNodes
  split at h
  · obtain ⟨e, he, hm⟩ := List.mem_map.1 h
    refine List.mem_append_left _ ?_
    have : m = e.efrom := by simpa using congrArg Prod.fst hm.symm
    exact this ▸ List.mem_map_of_mem _ (List.mem_of_mem_filter he)
  · obtain ⟨e, he, hm⟩ := List.mem_map.1 h
    refine List.mem_append_right _ ?_
    have : m = e.eto := by simpa using congrArg Prod.fst hm.symm
    exact this ▸ List.mem_map_of_mem _ (List.mem_of_mem_filter he)

theorem stepList_subset_coreUniv {g : Graph} {a : PathAutomaton} {cur y : SearchState}
    (h : y ∈ stepList g a cur) : y ∈ coreUniv g a := by
  obtain ⟨tm, htm, rfl⟩ := mem_stepList.1 h
  obtain ⟨ht, _, eid, hp⟩ := mem_expansionList.1 htm
  unfold coreUniv
  refine List.mem_map.2 ⟨(tm.2, tm.1.target), ?_, rfl⟩
  refine List.pair_mem_product.2 ⟨mem_setIter_node hp, List.mem_map_of_mem _ ht⟩

/-- Everything expanding the front search state does to the engine state. -/
theorem expandState_spec (g : Graph) (a : PathAutomaton) (root : SearchState)
    (st : BfsState) (cur : SearchState) (rest : List SearchState)
    (hq : st.openQ = cur :: rest) (hInv : Inv g a root st) :
    ∃ (dv : List SearchState) (da : List Nat),
      (expandState g a { st with openQ := rest } cur).1.visited = dv.reverse ++ st.visited ∧
      (expandState g a { st with openQ := rest } cur).1.openQ = rest ++ dv ∧
      (expandState g a { st with openQ := rest } cur).1.answered = da.reverse ++ st.answered ∧
      (expandState g a { st with openQ := rest } cur).2 = da.map (fun m => Answer.mk m [m]) ∧
      dv.Nodup ∧ da.Nodup ∧
      (∀ y ∈ dv, y ∉ st.visited ∧ y ∈ stepList g a cur) ∧
      (∀ m ∈ da, m ∉ st.answered ∧ ∃ y ∈ dv, y.node = m ∧ y.astate ∈ a.finals) ∧
      Inv g a root (expandState g a { st with openQ := rest } cur).1 := by
  obtain ⟨dv, da, h1, h2, h3, h4, h5, h6, h7, h8, h9, h10⟩ :=
    foldSpec_all a (expansionList g a cur) { st with openQ := rest } []
  have hcur_vis : cur ∈ st.visited := hInv.open_sub cur (hq ▸ List.mem_cons_self _ _)
  have hnodup_open := hInv.open_nodup
  rw [hq] at hnodup_open
  have hcur_rest : cur ∉ rest := (List.nodup_cons.1 hnodup_open).1
  have hrest_nodup : rest.Nodup := (List.nodup_cons.1 hnodup_open).2
  have hdv_new : ∀ y ∈ dv, y ∉ st.visited ∧ y ∈ stepList g a cur := by
    intro y hy
    obtain ⟨hy1, tm, htm, rfl⟩ := h7 y hy
    exact ⟨hy1, mem_stepList.2 ⟨tm, htm, rfl⟩⟩
  refine ⟨dv, da, h1, by simpa using h2, h3, by simpa using h4, h5, h6, hdv_new,
    fun m hm => h8 m hm, ?_⟩
  have hvis' : (expandState g a { st with openQ := rest } cur).1.visited =
      dv.reverse ++ st.visited := h1
  have hopen' : (expandState g a { st with openQ := rest } cur).1.openQ = rest ++ dv := by
    simpa using h2
  have hans' : (expandState g a { st with openQ := rest } cur).1.answered =
      da.reverse ++ st.answered := h3
  constructor
  · rw [hvis']
    refine List.Nodup.append (by simpa using h5) hInv.vis_nodup ?_
    intro y hy
    exact (hdv_new y (List.mem_reverse.1 hy)).1
  · rw [hopen']
    refine List.Nodup.append hrest_nodup h5 ?_
    intro y hy hy'
    exact (hdv_new y hy').1 (hInv.open_sub y (hq ▸ List.mem_cons_of_mem _ hy))
  · intro x hx
    rw [hopen'] at hx
    rw [hvis']
    rcases List.mem_append.1 hx with h | h
    · exact List.mem_append_right _ (hInv.open_sub x (hq ▸ List.mem_cons_of_mem _ h))
    · exact List.mem_append_left _ (List.mem_reverse.2 h)
  · rw [hvis']
    exact List.mem_append_right _ hInv.root_vis
  · intro x hx
    rw [hvis'] at hx
    rcases List.mem_append.1 hx with h | h
    · have hy := (hdv_new x (List.mem_reverse.1 h)).2
      exact Relation.ReflTransGen.tail (hInv.vis_reach cur hcur_vis) hy
    · exact hInv.vis_reach x h
  · intro x hx hxq y hy
    rw [hopen'] at hxq
    rw [hvis'] at hx ⊢
    rcases List.mem_append.1 hx with h | h
    · exact absurd (List.mem_append_right _ (List.mem_reverse.1 h)) hxq
    · by_cases hxc : x = cur
      · obtain ⟨tm, htm, rfl⟩ := mem_stepList.1 (hxc ▸ hy)
        have h9' : SearchState.mk tm.2 tm.1.target ∈
            (expandState g a { st with openQ := rest } cur).1.visited := h9 tm htm
        rw [hvis'] at h9'
        exact h9'
      · have hxo : x ∉ st.openQ := by
          rw [hq]
          intro hc
          rcases List.mem_cons.1 hc with h' | h'
          · exact hxc h'
          · exact hxq (List.mem_append_left _ h')
        exact List.mem_append_right _ (hInv.closed x h hxo y hy)
  · rw [hans']
    refine List.Nodup.append (by simpa using h6) hInv.ans_nodup ?_
    intro m hm
    exact (h8 m (List.mem_reverse.1 hm)).1
  · intro m hm
    rw [hans'] at hm
    rw [hvis']
    rcases List.mem_append.1 hm with h | h
    · obtain ⟨_, y, hy, hy1, hy2⟩ := h8 m (List.mem_reverse.1 h)
      exact ⟨y.astate, hy2, by
        have : SearchState.mk m y.astate = y := by
          cases y
          simp_all
        rw [this]
        exact List.mem_append_left _ (List.mem_reverse.2 hy)⟩
    · obtain ⟨q, hq1, hq2⟩ := hInv.ans_sound m h
      exact ⟨q, hq1, List.mem_append_right _ hq2⟩
  · intro x hx hxf
    rw [hvis'] at hx
    rcases List.mem_append.1 hx with h | h
    · exact h10 x (List.mem_reverse.1 h) hxf
    · rw [hans']
      exact List.mem_append_right _ (hInv.vis_ans x h hxf)

theorem filter_not_mem_congr {α : Type} [DecidableEq α] (univ A B : List α)
    (h : ∀ x, x ∈ A ↔ x ∈ B) :
    univ.filter (fun x => x ∉ A) = univ.filter (fun x => x ∉ B) :=
  List.filter_congr (fun x _ => by simp [h x])

theorem length_filter_cons_lt {α : Type} [DecidableEq α] (univ vis : List α) (y : α)
    (hy : y ∈ univ) (hnv : y ∉ vis) :
    (univ.filter (fun x => x ∉ y :: vis)).length <
      (univ.filter (fun x => x ∉ vis)).length := by
  have hsub : List.Sublist (univ.filter (fun x => x ∉ y :: vis))
      (univ.filter (fun x => x ∉ vis)) := by
    refine List.monotone_filter_right univ ?_
    intro a ha
    simp only [decide_eq_true_eq, List.mem_cons, not_or] at ha ⊢
    exact ha.2
  have hymem : y ∈ univ.filter (fun x => x ∉ vis) := by
    simp [List.mem_filter, hy, hnv]
  have hynot : y ∉ univ.filter (fun x => x ∉ y :: vis) := by
    simp [List.mem_filter]
  rcases Nat.lt_or_ge (univ.filter (fun x => x ∉ y :: vis)).length
      (univ.filter (fun x => x ∉ vis)).length with h | h
  · exact h
  · have heq := hsub.eq_of_length (Nat.le_antisymm hsub.length_le h)
    rw [heq] at hynot
    exact absurd hymem hynot

theorem length_filter_append_le {α : Type} [DecidableEq α] (univ : List α) :
    ∀ (dv vis : List α), dv.Nodup → (∀ y ∈ dv, y ∈ univ ∧ y ∉ vis) →
      (univ.filter (fun x => x ∉ dv.reverse ++ vis)).length + dv.length ≤
        (univ.filter (fun x => x ∉ vis)).length := by
  intro dv
  induction dv with
  | nil => intro vis _ _; simp
  | cons y dv ih =>
    intro vis hnodup hmem
    have hcong : univ.filter (fun x => x ∉ (y :: dv).reverse ++ vis) =
        univ.filter (fun x => x ∉ dv.reverse ++ (y :: vis)) := by
      refine filter_not_mem_congr univ _ _ ?_
      intro x
      simp only [List.reverse_cons, List.mem_append, List.mem_reverse, List.mem_cons,
        List.mem_singleton]
      tauto
    rw [hcong]
    have hmem' : ∀ z ∈ dv, z ∈ univ ∧ z ∉ y :: vis := by
      intro z hz
      obtain ⟨hz1, hz2⟩ := hmem z (List.mem_cons_of_mem _ hz)
      refine ⟨hz1, ?_⟩
      intro hc
      rcases List.mem_cons.1 hc with h | h
      · exact (List.nodup_cons.1 hnodup).1 (h ▸ hz)
      · exact hz2 h
    have h1 := ih (y :: vis) (List.nodup_cons.1 hnodup).2 hmem'
    have h2 := length_filter_cons_lt univ vis y (hmem y (List.mem_cons_self _ _)).1
      (hmem y (List.mem_cons_self _ _)).2
    simp only [List.length_cons]
    omega

/-- Expanding the front of the frontier strictly decreases the fuel measure. -/
theorem expandState_measure_lt (g : Graph) (a : PathAutomaton)
    (st : BfsState) (cur : SearchState) (rest : List SearchState)
    (hq : st.openQ = cur :: rest) :
    bfsMeasure g a (expandState g a { st with openQ := rest } cur).1 <
      bfsMeasure g a st := by
  obtain ⟨dv, da, h1, h2, h3, h4, h5, h6, h7, h8, h9, h10⟩ :=
    foldSpec_all a (expansionList g a cur) { st with openQ := rest } []
  have hdv : ∀ y ∈ dv, y ∈ coreUniv g a ∧ y ∉ st.visited := by
    intro y hy
    obtain ⟨hy1, tm, htm, rfl⟩ := h7 y hy
    exact ⟨stepList_subset_coreUniv (mem_stepList.2 ⟨tm, htm, rfl⟩), hy1⟩
  have hlen := length_filter_append_le (coreUniv g a) dv st.visited h5 hdv
  have hv : (expandState g a { st with openQ := rest } cur).1.visited =
      dv.reverse ++ st.visited := h1
  have ho : (expandState g a { st with openQ := rest } cur).1.openQ = rest ++ dv := by
    simpa using h2
  unfold bfsMeasure
  rw [hv, ho, hq]
  simp only [List.length_append, List.length_cons]
  omega

theorem drainF_zero (g : Graph) (a : PathAutomaton) (st : BfsState) :
    drainF g a 0 st = ⟨[], [], st⟩ := rfl

theorem drainF_succ_nil (g : Graph) (a : PathAutomaton) (fuel : Nat) (st : BfsState)
    (h : st.openQ = []) : drainF g a (fuel + 1) st = ⟨[], [], st⟩ := by
  simp only [drainF, h]

theorem drainF_succ_cons (g : Graph) (a : PathAutomaton) (fuel : Nat) (st : BfsState)
    (cur : SearchState) (rest : List SearchState) (h : st.openQ = cur :: rest) :
    drainF g a (fuel + 1) st =
      ⟨(expandState g a { st with openQ := rest } cur).2 ++
          (drainF g a fuel (expandState g a { st with openQ := rest } cur).1).outs,
        cur :: (drainF g a fuel (expandState g a { st with openQ := rest } cur).1).trace,
        (drainF g a fuel (expandState g a { st with openQ := rest } cur).1).final⟩ := by
  simp only [drainF, h]

theorem openQ_eq_nil_of_measure_zero {g : Graph} {a : PathAutomaton} {st : BfsState}
    (h : bfsMeasure g a st = 0) : st.openQ = [] := by
  unfold bfsMeasure at h
  exact List.eq_nil_of_length_eq_zero (by omega)

theorem drainF_fuel_succ (g : Graph) (a : PathAutomaton) :
    ∀ (fuel : Nat) (st : BfsState), bfsMeasure g a st ≤ fuel →
      drainF g a (fuel + 1) st = drainF g a fuel st := by
  intro fuel
  induction fuel with
  | zero =>
    intro st h
    have hnil : st.openQ = [] := openQ_eq_nil_of_measure_zero (Nat.le_zero.1 h)
    rw [drainF_succ_nil g a 0 st hnil, drainF_zero]
  | succ fuel ih =>
    intro st h
    cases hq : st.openQ with
    | nil => rw [drainF_succ_nil g a (fuel + 1) st hq, drainF_succ_nil g a fuel st hq]
    | cons cur rest =>
      rw [drainF_succ_cons g a (fuel + 1) st cur rest hq,
        drainF_succ_cons g a fuel st cur rest hq]
      have hm := expandState_measure_lt g a st cur rest hq
      rw [ih _ (by omega)]

theorem drainF_eq_drainAll (g : Graph) (a : PathAutomaton) :
    ∀ (k fuel : Nat) (st : BfsState), fuel = bfsMeasure g a st + k →
      drainF g a fuel st = drainAll g a st := by
  intro k
  induction k with
  | zero =>
    intro fuel st h
    rw [h, Nat.add_zero]
    rfl
  | succ k ih =>
    intro fuel st h
    have : fuel = (bfsMeasure g a st + k) + 1 := by omega
    rw [this, drainF_fuel_succ g a _ st (by omega), ih _ st rfl]

theorem drainAll_nil (g : Graph) (a : PathAutomaton) (st : BfsState)
    (h : st.openQ = []) : drainAll g a st = ⟨[], [], st⟩ := by
  unfold drainAll
  cases hm : bfsMeasure g a st with
  | zero => rfl
  | succ n => exact drainF_succ_nil g a n st h

theorem drainAll_cons (g : Graph) (a : PathAutomaton) (st : BfsState)
    (cur : SearchState) (rest : List SearchState) (h : st.openQ = cur :: rest) :
    drainAll g a st =
      ⟨(expandState g a { st with openQ := rest } cur).2 ++
          (drainAll g a (expandState g a { st with openQ := rest } cur).1).outs,
        cur :: (drainAll g a (expandState g a { st with openQ := rest } cur).1).trace,
        (drainAll g a (expandState g a { st with openQ := rest } cur).1).final⟩ := by
  have hm := expandState_measure_lt g a st cur rest h
  have hpos : 1 ≤ bfsMeasure g a st := by
    unfold bfsMeasure
    rw [h]
    simp only [List.length_cons]
    omega
  unfold drainAll
  have hsplit : bfsMeasure g a st = (bfsMeasure g a st - 1) + 1 := by omega
  rw [hsplit, drainF_succ_cons g a _ st cur rest h]
  rw [drainF_eq_drainAll g a
    (bfsMeasure g a st - 1 - bfsMeasure g a (expandState g a { st with openQ := rest } cur).1)
    _ _ (by omega)]
  rfl

theorem drainAll_final_openQ (g : Graph) (a : PathAutomaton) :
    ∀ (n : Nat) (st : BfsState), bfsMeasure g a st ≤ n →
      (drainAll g a st).final.openQ = [] := by
  intro n
  induction n with
  | zero =>
    intro st h
    have hnil := openQ_eq_nil_of_measure_zero (Nat.le_zero.1 h)
    rw [drainAll_nil g a st hnil]
    exact hnil
  | succ n ih =>
    intro st h
    cases hq : st.openQ with
    | nil =>
      rw [drainAll_nil g a st hq]
      exact hq
    | cons cur rest =>
      rw [drainAll_cons g a st cur rest hq]
      have hm := expandState_measure_lt g a st cur rest hq
      exact ih _ (by omega)

/-- Accumulated effect of a full drain: the produced answers are exactly the
nodes newly added to the answered set, in production order, each of the
degenerate single-node-path shape; the invariant is preserved to the final
state and the visited set only grows. -/
theorem drainAll_main (g : Graph) (a : PathAutomaton) (root : SearchState) :
    ∀ (n : Nat) (st : BfsState), bfsMeasure g a st ≤ n → Inv g a root st →
      ∃ dOuts : List Nat,
        (drainAll g a st).outs = dOuts.map (fun m => Answer.mk m [m]) ∧
        (drainAll g a st).final.answered = dOuts.reverse ++ st.answered ∧
        dOuts.Nodup ∧
        (∀ m ∈ dOuts, m ∉ st.answered) ∧
        Inv g a root (drainAll g a st).final ∧
        (∀ x ∈ st.visited, x ∈ (drainAll g a st).final.visited) := by
  intro n
  induction n with
  | zero =>
    intro st h hInv
    rw [drainAll_nil g a st (openQ_eq_nil_of_measure_zero (Nat.le_zero.1 h))]
    exact ⟨[], by simp, by simp, List.nodup_nil, by simp, hInv, fun x hx => hx⟩
  | succ n ih =>
    intro st h hInv
    cases hq : st.openQ with
    | nil =>
      rw [drainAll_nil g a st hq]
      exact ⟨[], by simp, by simp, List.nodup_nil, by simp, hInv, fun x hx => hx⟩
    | cons cur rest =>
      obtain ⟨dv, da, hv, ho, ha, hout, hdvN, hdaN, hdvF, hdaF, hInv'⟩ :=
        expandState_spec g a root st cur rest hq hInv
      have hm := expandState_measure_lt g a st cur rest hq
      obtain ⟨dOuts, g1, g2, g3, g4, g5, g6⟩ :=
        ih (expandState g a { st with openQ := rest } cur).1 (by omega) hInv'
      rw [drainAll_cons g a st cur rest hq]
      refine ⟨da ++ dOuts, ?_, ?_, ?_, ?_, g5, ?_⟩
      · simp only [hout, g1, List.map_append]
      · simp only [g2, ha, List.reverse_append, List.append_assoc]
      · refine List.Nodup.append hdaN g3 ?_
        intro m hm1 hm2
        have := g4 m hm2
        rw [ha] at this
        exact this (List.mem_append_left _ (List.mem_reverse.2 hm1))
      · intro m hmm
        rcases List.mem_append.1 hmm with h' | h'
        · exact (hdaF m h').1
        · have := g4 m h'
          rw [ha] at this
          intro hc
          exact this (List.mem_append_right _ hc)
      · intro x hx
        refine g6 x ?_
        rw [hv]
        exact List.mem_append_right _ hx

/-- The dequeue trace of a full drain: duplicate free, and contained in the
final visited set. -/
theorem drainAll_trace_spec (g : Graph) (a : PathAutomaton) (root : SearchState) :
    ∀ (n : Nat) (st : BfsState), bfsMeasure g a st ≤ n → Inv g a root st →
      (drainAll g a st).trace.Nodup ∧
      (∀ x ∈ (drainAll g a st).trace, x ∈ st.openQ ∨ x ∉ st.visited) ∧
      (∀ x ∈ (drainAll g a st).trace, x ∈ (drainAll g a st).final.visited) := by
  intro n
  induction n with
  | zero =>
    intro st h _
    rw [drainAll_nil g a st (openQ_eq_nil_of_measure_zero (Nat.le_zero.1 h))]
    exact ⟨List.nodup_nil, by simp, by simp⟩
  | succ n ih =>
    intro st h hInv
    cases hq : st.openQ with
    | nil =>
      rw [drainAll_nil g a st hq]
      exact ⟨List.nodup_nil, by simp, by simp⟩
    | cons cur rest =>
      obtain ⟨dv, da, hv, ho, ha, hout, hdvN, hdaN, hdvF, hdaF, hInv'⟩ :=
        expandState_spec g a root st cur rest hq hInv
      have hm := expandState_measure_lt g a st cur rest hq
      obtain ⟨g1, g2, g3⟩ :=
        ih (expandState g a { st with openQ := rest } cur).1 (by omega) hInv'
      obtain ⟨_, _, _, _, _, _, g6⟩ :=
        drainAll_main g a root n (expandState g a { st with openQ := rest } cur).1
          (by omega) hInv'
      have hcur_vis : cur ∈ st.visited := hInv.open_sub cur (hq ▸ List.mem_cons_self _ _)
      have hnodup_open := hInv.open_nodup
      rw [hq] at hnodup_open
      rw [drainAll_cons g a st cur rest hq]
      refine ⟨?_, ?_, ?_⟩
      · refine List.nodup_cons.2 ⟨?_, g1⟩
        intro hc
        rcases g2 cur hc with h' | h'
        · rw [ho] at h'
          rcases List.mem_append.1 h' with h'' | h''
          · exact (List.nodup_cons.1 hnodup_open).1 h''
          · exact (hdvF cur h'').1 hcur_vis
        · rw [hv] at h'
          exact h' (List.mem_append_right _ hcur_vis)
      · intro x hx
        rcases List.mem_cons.1 hx with h' | h'
        · left
          rw [h']
          exact List.mem_cons_self _ _
        · rcases g2 x h' with h'' | h''
          · rw [ho] at h''
            rcases List.mem_append.1 h'' with h3 | h3
            · left
              exact List.mem_cons_of_mem _ h3
            · right
              exact (hdvF x h3).1
          · right
            intro hc
            apply h''
            rw [hv]
            exact List.mem_append_right _ hc
      · intro x hx
        rcases List.mem_cons.1 hx with h' | h'
        · subst h'
          refine g6 x ?_
          rw [hv]
          exact List.mem_append_right _ hcur_vis
        · exact g3 x h'

/-- Once the frontier is empty, the visited set is closed, so it contains every
search state reachable from the root. -/
theorem reach_subset_visited {g : Graph} {a : PathAutomaton} {root : SearchState}
    {st : BfsState} (hInv : Inv g a root st) (hq : st.openQ = []) :
    ∀ x, Reach g a root x → x ∈ st.visited := by
  intro x hx
  unfold Reach at hx
  induction hx with
  | refl => exact hInv.root_vis
  | tail _ step ih =>
    rename_i b c _
    refine hInv.closed b ih ?_ c step
    rw [hq]
    exact List.not_mem_nil b

/-- The invariant holds right after `begin` has seeded the search. -/
theorem beginRes_inv (g : Graph) (a : PathAutomaton) (s0 : Nat) :
    Inv g a ⟨s0, a.initial⟩ (beginRes a s0).bfs := by
  unfold beginRes
  by_cases hf : a.initial ∈ a.finals
  · simp only [hf, if_pos, if_true]
    refine ⟨by simp, by simp, by simp, by simp, ?_, ?_, by simp, ?_, ?_⟩
    · intro x hx
      rcases List.mem_singleton.1 (by simpa using hx) with h
      rw [h]
      exact Relation.ReflTransGen.refl
    · intro x hx hxq
      simp only [List.mem_singleton] at hx
      simp only [hx, List.mem_singleton] at hxq
      exact absurd trivial hxq
    · intro m hm
      simp only [List.mem_singleton] at hm
      exact ⟨a.initial, hf, by simp [hm]⟩
    · intro x hx hxf
      simp only [List.mem_singleton] at hx
      simp [hx]
  · simp only [hf, if_neg, if_false]
    refine ⟨by simp, by simp, by simp, by simp, ?_, ?_, by simp, by simp, ?_⟩
    · intro x hx
      rcases List.mem_singleton.1 (by simpa using hx) with h
      rw [h]
      exact Relation.ReflTransGen.refl
    · intro x hx hxq
      simp only [List.mem_singleton] at hx
      simp only [hx, List.mem_singleton] at hxq
      exact absurd trivial hxq
    · intro x hx hxf
      simp only [List.mem_singleton] at hx
      rw [hx] at hxf
      exact absurd hxf hf

theorem nextLoopF_zero (g : Graph) (a : PathAutomaton) (cfg : Config) :
    nextLoopF g a 0 cfg = (none, cfg) := rfl

theorem nextLoopF_succ_nil (g : Graph) (a : PathAutomaton) (fuel : Nat) (cfg : Config)
    (h : cfg.bfs.openQ = []) : nextLoopF g a (fuel + 1) cfg = (none, cfg) := by
  simp only [nextLoopF, h]

theorem nextLoopF_succ_cons (g : Graph) (a : PathAutomaton) (fuel : Nat) (cfg : Config)
    (cur : SearchState) (rest : List SearchState) (h : cfg.bfs.openQ = cur :: rest) :
    nextLoopF g a (fuel + 1) cfg =
      match (expandState g a { cfg.bfs with openQ := rest } cur).2 with
      | [] => nextLoopF g a fuel
          { cfg with bfs := (expandState g a { cfg.bfs with openQ := rest } cur).1 }
      | ans :: restOuts =>
          (some ans,
            { cfg with bfs := (expandState g a { cfg.bfs with openQ := rest } cur).1,
                       pending := restOuts }) := by
  simp only [nextLoopF, h]

/-- The BFS loop of one `next()` call versus the full drain: either it signals
exhaustion and the drain produces nothing, or it emits the first drained answer
and the remaining drained answers are the buffered ones plus those of the rest
of the drain. -/
theorem nextLoopF_spec (g : Graph) (a : PathAutomaton) :
    ∀ (fuel : Nat) (cfg : Config), bfsMeasure g a cfg.bfs ≤ fuel →
      (∃ cfg', nextLoopF g a fuel cfg = (none, cfg') ∧ (drainAll g a cfg.bfs).outs = []) ∨
      (∃ ans cfg', nextLoopF g a fuel cfg = (some ans, cfg') ∧
        cfg'.startNode = cfg.startNode ∧ cfg'.pendingSelf = cfg.pendingSelf ∧
        (drainAll g a cfg.bfs).outs =
          ans :: (cfg'.pending ++ (drainAll g a cfg'.bfs).outs)) := by
  intro fuel
  induction fuel with
  | zero =>
    intro cfg h
    have hnil := openQ_eq_nil_of_measure_zero (Nat.le_zero.1 h)
    refine Or.inl ⟨cfg, rfl, ?_⟩
    rw [drainAll_nil g a _ hnil]
  | succ fuel ih =>
    intro cfg h
    cases hq : cfg.bfs.openQ with
    | nil =>
      refine Or.inl ⟨cfg, nextLoopF_succ_nil g a fuel cfg hq, ?_⟩
      rw [drainAll_nil g a _ hq]
    | cons cur rest =>
      have hm := expandState_measure_lt g a cfg.bfs cur rest hq
      have hdr := drainAll_cons g a cfg.bfs cur rest hq
      rw [nextLoopF_succ_cons g a fuel cfg cur rest hq]
      cases hr : (expandState g a { cfg.bfs with openQ := rest } cur).2 with
      | nil =>
        rcases ih { cfg with bfs := (expandState g a { cfg.bfs with openQ := rest } cur).1 }
            (Nat.lt_succ_iff.mp (Nat.lt_of_lt_of_le hm h))
            with ⟨cfg', h1, h2⟩ | ⟨ans, cfg', h1, h2, h3, h4⟩
        · refine Or.inl ⟨cfg', h1, ?_⟩
          rw [hdr]
          simp only [hr, List.nil_append]
          exact h2
        · refine Or.inr ⟨ans, cfg', h1, h2, h3, ?_⟩
          rw [hdr]
          simp only [hr, List.nil_append]
          exact h4
      | cons ans restOuts =>
        refine Or.inr ⟨ans,
          { cfg with bfs := (expandState g a { cfg.bfs with openQ := rest } cur).1,
                     pending := restOuts }, rfl, rfl, rfl, ?_⟩
        rw [hdr]
        simp only [hr]
        rfl

theorem nextCall_self (g : Graph) (a : PathAutomaton) (cfg : Config)
    (h : cfg.pendingSelf = true) :
    nextCall g a cfg =
      (some ⟨cfg.startNode, []⟩, { cfg with pendingSelf := false }) := by
  simp only [nextCall, h, if_true]

theorem nextCall_pending (g : Graph) (a : PathAutomaton) (cfg : Config)
    (ans : Answer) (rest : List Answer)
    (h : cfg.pendingSelf = false) (hp : cfg.pending = ans :: rest) :
    nextCall g a cfg = (some ans, { cfg with pending := rest }) := by
  simp only [nextCall, h, if_false, hp, Bool.false_eq_true]

theorem nextCall_loop (g : Graph) (a : PathAutomaton) (cfg : Config)
    (h : cfg.pendingSelf = false) (hp : cfg.pending = []) :
    nextCall g a cfg = nextLoopF g a (bfsMeasure g a cfg.bfs) cfg := by
  simp only [nextCall, h, if_false, hp, Bool.false_eq_true]

theorem callsOutput_zero (g : Graph) (a : PathAutomaton) (cfg : Config) :
    callsOutput g a 0 cfg = [] := rfl

theorem callsOutput_succ (g : Graph) (a : PathAutomaton) (k : Nat) (cfg : Config) :
    callsOutput g a (k + 1) cfg =
      match nextCall g a cfg with
      | (none, _) => []
      | (some ans, cfg') => ans :: callsOutput g a k cfg' := rfl

/-- With a sufficient number of calls, the answers returned by repeated
`next()` calls are exactly the buffered answers followed by all answers of the
full drain. -/
theorem callsOutput_eq_drain (g : Graph) (a : PathAutomaton) :
    ∀ (k : Nat) (cfg : Config), cfg.pendingSelf = false →
      cfg.pending.length + (drainAll g a cfg.bfs).outs.length + 1 ≤ k →
      callsOutput g a k cfg = cfg.pending ++ (drainAll g a cfg.bfs).outs := by
  intro k
  induction k with
  | zero => intro cfg _ hbudget; omega
  | succ k ih =>
    intro cfg hself hbudget
    rw [callsOutput_succ]
    cases hp : cfg.pending with
    | cons ans rest =>
      rw [nextCall_pending g a cfg ans rest hself hp]
      show ans :: callsOutput g a k { cfg with pending := rest } =
        ans :: rest ++ (drainAll g a cfg.bfs).outs
      have hk := ih { cfg with pending := rest } hself (by
        show rest.length + (drainAll g a cfg.bfs).outs.length + 1 ≤ k
        rw [hp] at hbudget
        simp only [List.length_cons] at hbudget
        omega)
      rw [hk]
      rfl
    | nil =>
      rw [nextCall_loop g a cfg hself hp]
      rcases nextLoopF_spec g a (bfsMeasure g a cfg.bfs) cfg (Nat.le_refl _) with
        ⟨cfg', h1, h2⟩ | ⟨ans, cfg', h1, h2, h3, h4⟩
      · rw [h1]
        show ([] : List Answer) = [] ++ (drainAll g a cfg.bfs).outs
        rw [h2]
        rfl
      · rw [h1]
        show ans :: callsOutput g a k cfg' = [] ++ (drainAll g a cfg.bfs).outs
        have hk := ih cfg' (h3.trans hself) (by
          have hlen := congrArg List.length h4
          simp only [List.length_cons, List.length_append] at hlen
          simp only [hp, List.length_nil] at hbudget
          omega)
        rw [hk, h4]
        rfl

theorem callsOutput_sublist_succ (g : Graph) (a : PathAutomaton) :
    ∀ (k : Nat) (cfg : Config),
      List.Sublist (callsOutput g a k cfg) (callsOutput g a (k + 1) cfg) := by
  intro k
  induction k with
  | zero => intro cfg; exact List.nil_sublist _
  | succ k ih =>
    intro cfg
    rw [callsOutput_succ g a k cfg, callsOutput_succ g a (k + 1) cfg]
    cases hnc : nextCall g a cfg with
    | mk o cfg' =>
      cases o with
      | none => exact List.Sublist.refl _
      | some ans => exact List.Sublist.cons₂ ans (ih cfg')

theorem callsOutput_sublist_le (g : Graph) (a : PathAutomaton) (cfg : Config) :
    ∀ (j k : Nat), j ≤ k →
      List.Sublist (callsOutput g a j cfg) (callsOutput g a k cfg) := by
  intro j k hjk
  induction k with
  | zero =>
    have : j = 0 := by omega
    rw [this]
  | succ k ih =>
    rcases Nat.lt_or_ge j (k + 1) with h | h
    · exact (ih (by omega)).trans (callsOutput_sublist_succ g a k cfg)
    · have : j = k + 1 := by omega
      rw [this]

/-- Over one full drain, at most as many answers are produced as there are
unvisited universe states. -/
theorem drainAll_outs_le (g : Graph) (a : PathAutomaton) (root : SearchState) :
    ∀ (n : Nat) (st : BfsState), bfsMeasure g a st ≤ n → Inv g a root st →
      (drainAll g a st).outs.length ≤
        ((coreUniv g a).filter (fun x => x ∉ st.visited)).length := by
  intro n
  induction n with
  | zero =>
    intro st h _
    rw [drainAll_nil g a st (openQ_eq_nil_of_measure_zero (Nat.le_zero.1 h))]
    simp
  | succ n ih =>
    intro st h hInv
    cases hq : st.openQ with
    | nil =>
      rw [drainAll_nil g a st hq]
      simp
    | cons cur rest =>
      obtain ⟨dv, da, hv, ho, ha, hout, hdvN, hdaN, hdvF, hdaF, hInv'⟩ :=
        expandState_spec g a root st cur rest hq hInv
      have hm := expandState_measure_lt g a st cur rest hq
      have hih := ih (expandState g a { st with openQ := rest } cur).1 (by omega) hInv'
      rw [drainAll_cons g a st cur rest hq]
      simp only [List.length_append]
      have hda_dv : da.length ≤ dv.length := by
        have hsub : ∀ m ∈ da, m ∈ dv.map (·.node) := by
          intro m hmm
          obtain ⟨_, y, hy, hy1, _⟩ := hdaF m hmm
          exact List.mem_map.2 ⟨y, hy, hy1⟩
        calc da.length = da.toFinset.card := (List.toFinset_card_of_nodup hdaN).symm
          _ ≤ (dv.map (·.node)).toFinset.card := by
                refine Finset.card_le_card ?_
                intro m hmm
                rw [List.mem_toFinset] at hmm ⊢
                exact hsub m hmm
          _ ≤ (dv.map (·.node)).length := List.toFinset_card_le _
          _ = dv.length := List.length_map _ _
      have hfilt := length_filter_append_le (coreUniv g a) dv st.visited hdvN
        (fun y hy => ⟨stepList_subset_coreUniv (hdvF y hy).2, (hdvF y hy).1⟩)
      have hout_len : (expandState g a { st with openQ := rest } cur).2.length = da.length := by
        rw [hout, List.length_map]
      rw [hv] at hih
      omega

theorem beginRes_pendingSelf (a : PathAutomaton) (s0 : Nat) :
    (beginRes a s0).pendingSelf = decide (a.initial ∈ a.finals) := rfl

theorem beginRes_startNode (a : PathAutomaton) (s0 : Nat) :
    (beginRes a s0).startNode = s0 := rfl

theorem beginRes_pending (a : PathAutomaton) (s0 : Nat) :
    (beginRes a s0).pending = [] := rfl

theorem beginRes_bfs (a : PathAutomaton) (s0 : Nat) :
    (beginRes a s0).bfs =
      ⟨[⟨s0, a.initial⟩], [⟨s0, a.initial⟩],
        if a.initial ∈ a.finals then [s0] else []⟩ := rfl

theorem drainAll_outs_le_measure (g : Graph) (a : PathAutomaton) (s0 : Nat) :
    (drainAll g a (beginRes a s0).bfs).outs.length ≤
      bfsMeasure g a (beginRes a s0).bfs := by
  refine Nat.le_trans
    (drainAll_outs_le g a ⟨s0, a.initial⟩ (bfsMeasure g a (beginRes a s0).bfs)
      (beginRes a s0).bfs (Nat.le_refl _) (beginRes_inv g a s0)) ?_
  unfold bfsMeasure
  exact Nat.le_add_left _ _

/-- With at least `enumBudget` many calls, repeated `next()` returns the
pending self answer (when the initial state accepts) followed by every drained
answer. -/
theorem callsOutput_beginRes (g : Graph) (a : PathAutomaton) (s0 : Nat)
    (K : Nat) (hK : enumBudget g a s0 ≤ K) :
    callsOutput g a K (beginRes a s0) =
      (if a.initial ∈ a.finals then [Answer.mk s0 []] else []) ++
        (drainAll g a (beginRes a s0).bfs).outs := by
  have houts := drainAll_outs_le_measure g a s0
  unfold enumBudget at hK
  by_cases hf : a.initial ∈ a.finals
  · have hK1 : ∃ K', K = K' + 1 := ⟨K - 1, by omega⟩
    obtain ⟨K', rfl⟩ := hK1
    rw [callsOutput_succ, nextCall_self g a (beginRes a s0) (by
      rw [beginRes_pendingSelf]
      simp [hf])]
    have hEq := callsOutput_eq_drain g a K' { beginRes a s0 with pendingSelf := false }
      rfl (by
        show (beginRes a s0).pending.length +
          (drainAll g a (beginRes a s0).bfs).outs.length + 1 ≤ K'
        rw [beginRes_pending]
        simp only [List.length_nil]
        omega)
    show Answer.mk ((beginRes a s0).startNode) [] ::
        callsOutput g a K' { beginRes a s0 with pendingSelf := false } = _
    rw [hEq, beginRes_startNode]
    simp [hf, beginRes_pending]
  · rw [if_neg hf]
    have hEq := callsOutput_eq_drain g a K (beginRes a s0)
      (by rw [beginRes_pendingSelf]; simp [hf]) (by
        rw [beginRes_pending]
        simp only [List.length_nil]
        omega)
    rw [hEq, beginRes_pending]

theorem enumOutputs_eq (g : Graph) (a : PathAutomaton) (s0 : Nat) :
    enumOutputs g a s0 =
      (if a.initial ∈ a.finals then [Answer.mk s0 []] else []) ++
        (drainAll g a (beginRes a s0).bfs).outs :=
  callsOutput_beginRes g a s0 (enumBudget g a s0) (Nat.le_refl _)

/-- Every partial sequence of `next()` results is a prefix (hence sublist) of
the full enumeration. -/
theorem callsOutput_sublist_enum (g : Graph) (a : PathAutomaton) (s0 : Nat)
    (k : Nat) :
    List.Sublist (callsOutput g a k (beginRes a s0)) (enumOutputs g a s0) := by
  rcases Nat.le_total k (enumBudget g a s0) with h | h
  · exact callsOutput_sublist_le g a (beginRes a s0) k (enumBudget g a s0) h
  · rw [callsOutput_beginRes g a s0 k h, ← enumOutputs_eq]

/-- The structure of one full enumeration's answers: a possible self answer
with the empty path, followed by the drained answers, whose end nodes are
exactly the nodes added to the answered set, duplicate free and not containing
an already-answered start node. -/
theorem enum_struct (g : Graph) (a : PathAutomaton) (s0 : Nat) :
    ∃ dOuts : List Nat,
      (drainAll g a (beginRes a s0).bfs).outs = dOuts.map (fun m => Answer.mk m [m]) ∧
      enumOutputs g a s0 =
        (if a.initial ∈ a.finals then [Answer.mk s0 []] else []) ++
          dOuts.map (fun m => Answer.mk m [m]) ∧
      enumEnds g a s0 = (if a.initial ∈ a.finals then [s0] else []) ++ dOuts ∧
      dOuts.Nodup ∧
      (a.initial ∈ a.finals → s0 ∉ dOuts) ∧
      (drainAll g a (beginRes a s0).bfs).final.answered =
        dOuts.reverse ++ (if a.initial ∈ a.finals then [s0] else []) ∧
      Inv g a ⟨s0, a.initial⟩ (drainAll g a (beginRes a s0).bfs).final := by
  obtain ⟨dOuts, g1, g2, g3, g4, g5, g6⟩ :=
    drainAll_main g a ⟨s0, a.initial⟩ (bfsMeasure g a (beginRes a s0).bfs)
      (beginRes a s0).bfs (Nat.le_refl _) (beginRes_inv g a s0)
  have hansb : (beginRes a s0).bfs.answered = if a.initial ∈ a.finals then [s0] else [] := rfl
  refine ⟨dOuts, g1, ?_, ?_, g3, ?_, ?_, g5⟩
  · rw [enumOutputs_eq, g1]
  · unfold enumEnds
    rw [enumOutputs_eq, g1, List.map_append]
    have h2 : ∀ l : List Nat,
        (l.map (fun m => Answer.mk m [m])).map (fun ans => ans.endNode) = l := by
      intro l
      induction l with
      | nil => rfl
      | cons x xs ih => simp only [List.map_cons, ih]
    rw [h2]
    congr 1
    by_cases hf : a.initial ∈ a.finals
    · simp [hf]
    · simp [hf]
  · intro hf hc
    have := g4 s0 hc
    rw [hansb, if_pos hf] at this
    exact this (List.mem_singleton.2 rfl)
  · rw [g2, hansb]

theorem enumEnds_nodup (g : Graph) (a : PathAutomaton) (s0 : Nat) :
    (enumEnds g a s0).Nodup := by
  obtain ⟨dOuts, _, _, hEnds, hN, hS, _, _⟩ := enum_struct g a s0
  rw [hEnds]
  by_cases hf : a.initial ∈ a.finals
  · rw [if_pos hf]
    refine List.Nodup.append (List.nodup_singleton _) hN ?_
    intro m hm hm'
    rw [List.mem_singleton] at hm
    exact hS hf (hm ▸ hm')
  · rw [if_neg hf]
    exact hN

/-- Soundness of one full enumeration: every answer's end node is connected to
the start node by an accepted label path. -/
theorem enum_sound (g : Graph) (a : PathAutomaton) (s0 : Nat) :
    ∀ ans ∈ enumOutputs g a s0, Accepted g a s0 ans.endNode := by
  obtain ⟨dOuts, _, hOut, _, _, _, hAns, hInvF⟩ := enum_struct g a s0
  intro ans hans
  rw [hOut] at hans
  rcases List.mem_append.1 hans with h | h
  · by_cases hf : a.initial ∈ a.finals
    · rw [if_pos hf, List.mem_singleton] at h
      rw [h]
      exact ⟨a.initial, hf, Relation.ReflTransGen.refl⟩
    · rw [if_neg hf] at h
      exact absurd h (List.not_mem_nil ans)
  · obtain ⟨m, hm, rfl⟩ := List.mem_map.1 h
    have hmem : m ∈ (drainAll g a (beginRes a s0).bfs).final.answered := by
      rw [hAns]
      exact List.mem_append_left _ (List.mem_reverse.2 hm)
    obtain ⟨q, hq1, hq2⟩ := hInvF.ans_sound m hmem
    exact ⟨q, hq1, hInvF.vis_reach _ hq2⟩

/-- Completeness of one full enumeration: every node with an accepted label
path from the start node appears among the returned end nodes. -/
theorem enum_complete (g : Graph) (a : PathAutomaton) (s0 : Nat) :
    ∀ m, Accepted g a s0 m → m ∈ enumEnds g a s0 := by
  obtain ⟨dOuts, _, _, hEnds, _, _, hAns, hInvF⟩ := enum_struct g a s0
  intro m hm
  obtain ⟨q, hq1, hq2⟩ := hm
  have hvisF : SearchState.mk m q ∈ (drainAll g a (beginRes a s0).bfs).final.visited := by
    refine reach_subset_visited hInvF ?_ _ hq2
    exact drainAll_final_openQ g a (bfsMeasure g a (beginRes a s0).bfs) _ (Nat.le_refl _)
  have hansF := hInvF.vis_ans _ hvisF hq1
  rw [hAns] at hansF
  rw [hEnds]
  rcases List.mem_append.1 hansF with h | h
  · exact List.mem_append_right _ (List.mem_reverse.1 h)
  · exact List.mem_append_left _ h

theorem nodup_subset_length {α : Type} [DecidableEq α] {l l' : List α}
    (h1 : l.Nodup) (h2 : ∀ x ∈ l, x ∈ l') : l.length ≤ l'.length := by
  calc l.length = l.toFinset.card := (List.toFinset_card_of_nodup h1).symm
    _ ≤ l'.toFinset.card := by
        refine Finset.card_le_card ?_
        intro x hx
        rw [List.mem_toFinset] at hx ⊢
        exact h2 x hx
    _ ≤ l'.length := List.toFinset_card_le _

theorem mem_stateProd {g : Graph} {a : PathAutomaton} {x : SearchState} :
    x ∈ stateProd g a ↔ x.node ∈ g.nodeList ∧ x.astate ∈ a.states := by
  unfold stateProd
  constructor
  · rintro hx
    obtain ⟨p, hp, rfl⟩ := List.mem_map.1 hx
    exact List.pair_mem_product.1 hp
  · rintro ⟨h1, h2⟩
    exact List.mem_map.2 ⟨(x.node, x.astate), List.pair_mem_product.2 ⟨h1, h2⟩, rfl⟩

theorem stateProd_nodup {g : Graph} {a : PathAutomaton}
    (hg : WFGraph g) (ha : WFAutomaton a) : (stateProd g a).Nodup := by
  refine List.Nodup.map ?_ (List.Nodup.product hg.1 ha.1)
  intro p q hpq
  cases p
  cases q
  simpa [Prod.ext_iff] using congrArg (fun s : SearchState => (s.node, s.astate)) hpq

theorem stateProd_length (g : Graph) (a : PathAutomaton) :
    (stateProd g a).length = g.nodeList.length * a.states.length := by
  unfold stateProd
  rw [List.length_map]
  rw [show g.nodeList.product a.states = g.nodeList ×ˢ a.states from rfl,
    List.length_product]

theorem stepList_subset_stateProd {g : Graph} {a : PathAutomaton} {cur y : SearchState}
    (hg : WFGraph g) (ha : WFAutomaton a) (h : y ∈ stepList g a cur) :
    y ∈ stateProd g a := by
  obtain ⟨tm, htm, rfl⟩ := mem_stepList.1 h
  obtain ⟨ht, _, eid, hp⟩ := mem_expansionList.1 htm
  refine mem_stateProd.2 ⟨?_, (ha.2.2 tm.1 ht).2⟩
  have hmem := mem_setIter_node hp
  unfold edgeNodes at hmem
  rcases List.mem_append.1 hmem with h' | h'
  · obtain ⟨e, he, heq⟩ := List.mem_map.1 h'
    exact heq ▸ (hg.2 e he).1
  · obtain ⟨e, he, heq⟩ := List.mem_map.1 h'
    exact heq ▸ (hg.2 e he).2

theorem drainAll_visited_sub (g : Graph) (a : PathAutomaton) (root : SearchState)
    (hg : WFGraph g) (ha : WFAutomaton a) :
    ∀ (n : Nat) (st : BfsState), bfsMeasure g a st ≤ n → Inv g a root st →
      (∀ x ∈ st.visited, x ∈ stateProd g a) →
      ∀ x ∈ (drainAll g a st).final.visited, x ∈ stateProd g a := by
  intro n
  induction n with
  | zero =>
    intro st h _ hsub
    rw [drainAll_nil g a st (openQ_eq_nil_of_measure_zero (Nat.le_zero.1 h))]
    exact hsub
  | succ n ih =>
    intro st h hInv hsub
    cases hq : st.openQ with
    | nil =>
      rw [drainAll_nil g a st hq]
      exact hsub
    | cons cur rest =>
      obtain ⟨dv, da, hv, ho, ha', hout, hdvN, hdaN, hdvF, hdaF, hInv'⟩ :=
        expandState_spec g a root st cur rest hq hInv
      have hm := expandState_measure_lt g a st cur rest hq
      rw [drainAll_cons g a st cur rest hq]
      refine ih (expandState g a { st with openQ := rest } cur).1 (by omega) hInv' ?_
      intro x hx
      rw [hv] at hx
      rcases List.mem_append.1 hx with h' | h'
      · exact stepList_subset_stateProd hg ha (hdvF x (List.mem_reverse.1 h')).2
      · exact hsub x h'

/-- The dequeue trace of one full enumeration: duplicate free and bounded by
the number of (node, automaton state) pairs. -/
theorem enum_trace_bound (g : Graph) (a : PathAutomaton) (s0 : Nat)
    (hg : WFGraph g) (ha : WFAutomaton a) (hs0 : s0 ∈ g.nodeList) :
    (drainAll g a (beginRes a s0).bfs).trace.Nodup ∧
      (drainAll g a (beginRes a s0).bfs).trace.length ≤
        g.nodeList.length * a.states.length := by
  have hInv := beginRes_inv g a s0
  obtain ⟨t1, _, t3⟩ := drainAll_trace_spec g a ⟨s0, a.initial⟩
    (bfsMeasure g a (beginRes a s0).bfs) (beginRes a s0).bfs (Nat.le_refl _) hInv
  refine ⟨t1, ?_⟩
  have hsub0 : ∀ x ∈ (beginRes a s0).bfs.visited, x ∈ stateProd g a := by
    intro x hx
    rw [beginRes_bfs] at hx
    rcases List.mem_singleton.1 hx with rfl
    exact mem_stateProd.2 ⟨hs0, ha.2.1⟩
  have hvsub := drainAll_visited_sub g a ⟨s0, a.initial⟩ hg ha
    (bfsMeasure g a (beginRes a s0).bfs) (beginRes a s0).bfs (Nat.le_refl _) hInv hsub0
  rw [← stateProd_length]
  exact nodup_subset_length t1 (fun x hx => hvsub x (t3 x hx))

theorem reachSet_zero (g : Graph) (a : PathAutomaton) (root : SearchState) :
    reachSet g a root 0 = [root] := rfl

theorem reachSet_succ (g : Graph) (a : PathAutomaton) (root : SearchState) (n : Nat) :
    reachSet g a root (n + 1) =
      reachSet g a root n ++
        (((reachSet g a root n).flatMap (stepList g a)).filter
          (fun y => y ∉ reachSet g a root n)).dedup := rfl

theorem reachSet_mono_succ {g : Graph} {a : PathAutomaton} {root x : SearchState}
    {n : Nat} (h : x ∈ reachSet g a root n) : x ∈ reachSet g a root (n + 1) := by
  rw [reachSet_succ]
  exact List.mem_append_left _ h

theorem reachSet_mono {g : Graph} {a : PathAutomaton} {root x : SearchState}
    {m n : Nat} (hmn : m ≤ n) (h : x ∈ reachSet g a root m) :
    x ∈ reachSet g a root n := by
  induction n with
  | zero =>
    have : m = 0 := by omega
    exact this ▸ h
  | succ n ih =>
    rcases Nat.lt_or_ge m (n + 1) with h' | h'
    · exact reachSet_mono_succ (ih (by omega))
    · have : m = n + 1 := by omega
      exact this ▸ h

theorem reachSet_sound {g : Graph} {a : PathAutomaton} {root : SearchState} :
    ∀ {n : Nat} {x : SearchState}, x ∈ reachSet g a root n → Reach g a root x := by
  intro n
  induction n with
  | zero =>
    intro x hx
    rw [reachSet_zero] at hx
    rw [List.mem_singleton.1 hx]
    exact Relation.ReflTransGen.refl
  | succ n ih =>
    intro x hx
    rw [reachSet_succ] at hx
    rcases List.mem_append.1 hx with h | h
    · exact ih h
    · rw [List.mem_dedup] at h
      obtain ⟨h1, _⟩ := List.mem_filter.1 h
      obtain ⟨w, hw, hxw⟩ := List.mem_flatMap.1 h1
      exact Relation.ReflTransGen.tail (ih hw) hxw

theorem reachSet_closed_step {g : Graph} {a : PathAutomaton} {root w y : SearchState}
    {n : Nat} (hw : w ∈ reachSet g a root n) (hy : y ∈ stepList g a w) :
    y ∈ reachSet g a root (n + 1) := by
  rw [reachSet_succ]
  by_cases h : y ∈ reachSet g a root n
  · exact List.mem_append_left _ h
  · refine List.mem_append_right _ ?_
    rw [List.mem_dedup]
    refine List.mem_filter.2 ⟨List.mem_flatMap.2 ⟨w, hw, hy⟩, ?_⟩
    simpa using h

theorem reachSet_complete {g : Graph} {a : PathAutomaton} {root x : SearchState}
    (h : Reach g a root x) : ∃ n, x ∈ reachSet g a root n := by
  unfold Reach at h
  induction h with
  | refl => exact ⟨0, List.mem_singleton.2 rfl⟩
  | tail _ hstep ih =>
    obtain ⟨n, hn⟩ := ih
    exact ⟨n + 1, reachSet_closed_step hn hstep⟩

theorem reachSet_nodup (g : Graph) (a : PathAutomaton) (root : SearchState) :
    ∀ n, (reachSet g a root n).Nodup := by
  intro n
  induction n with
  | zero => exact List.nodup_singleton root
  | succ n ih =>
    rw [reachSet_succ]
    refine List.Nodup.append ih (List.nodup_dedup _) ?_
    intro y hy hc
    rw [List.mem_dedup] at hc
    obtain ⟨_, h2⟩ := List.mem_filter.1 hc
    simp only [decide_eq_true_eq] at h2
    exact h2 hy

theorem reachSet_subset {g : Graph} {a : PathAutomaton} {root : SearchState} :
    ∀ {n : Nat} {x : SearchState}, x ∈ reachSet g a root n →
      x = root ∨ x ∈ coreUniv g a := by
  intro n
  induction n with
  | zero =>
    intro x hx
    exact Or.inl (List.mem_singleton.1 hx)
  | succ n ih =>
    intro x hx
    rw [reachSet_succ] at hx
    rcases List.mem_append.1 hx with h | h
    · exact ih h
    · rw [List.mem_dedup] at h
      obtain ⟨h1, _⟩ := List.mem_filter.1 h
      obtain ⟨w, _, hxw⟩ := List.mem_flatMap.1 h1
      exact Or.inr (stepList_subset_coreUniv hxw)

theorem reachSet_length_le (g : Graph) (a : PathAutomaton) (root : SearchState)
    (n : Nat) : (reachSet g a root n).length ≤ (coreUniv g a).length + 1 := by
  have hsub : ∀ x ∈ reachSet g a root n, x ∈ root :: coreUniv g a := by
    intro x hx
    rcases reachSet_subset hx with h | h
    · exact h ▸ List.mem_cons_self _ _
    · exact List.mem_cons_of_mem _ h
  have h := nodup_subset_length (reachSet_nodup g a root n) hsub
  simpa using h

theorem reachSet_stable {g : Graph} {a : PathAutomaton} {root : SearchState}
    {n : Nat} (h : reachSet g a root (n + 1) = reachSet g a root n) :
    ∀ k, reachSet g a root (n + k) = reachSet g a root n := by
  intro k
  induction k with
  | zero => rfl
  | succ k ih =>
    have : n + (k + 1) = (n + k) + 1 := by omega
    rw [this, reachSet_succ, ih, ← reachSet_succ, h]

theorem reachSet_growth {g : Graph} {a : PathAutomaton} {root : SearchState}
    {n : Nat} (h : reachSet g a root (n + 1) ≠ reachSet g a root n) :
    (reachSet g a root n).length + 1 ≤ (reachSet g a root (n + 1)).length := by
  rw [reachSet_succ] at h ⊢
  cases hadd : ((reachSet g a root n).flatMap (stepList g a)).filter
      (fun y => y ∉ reachSet g a root n) |>.dedup with
  | nil =>
    rw [hadd] at h
    simp at h
  | cons z zs =>
    simp only [List.length_append, List.length_cons]
    omega

theorem reachSet_saturates (g : Graph) (a : PathAutomaton) (root x : SearchState)
    (h : Reach g a root x) : x ∈ reachSet g a root (distBound g a) := by
  obtain ⟨k, hk⟩ := reachSet_complete h
  have hstab : ∃ n, n < distBound g a ∧
      reachSet g a root (n + 1) = reachSet g a root n := by
    by_contra hc
    push_neg at hc
    have hgrow : ∀ n, n ≤ distBound g a → n + 1 ≤ (reachSet g a root n).length := by
      intro n
      induction n with
      | zero => intro _; simp [reachSet_zero]
      | succ n ih =>
        intro hn
        have h1 := ih (by omega)
        have h2 := reachSet_growth (hc n (by omega))
        omega
    have := hgrow (distBound g a) (Nat.le_refl _)
    have hlen := reachSet_length_le g a root (distBound g a)
    unfold distBound at this hlen
    omega
  obtain ⟨n, hn, hstable⟩ := hstab
  rcases Nat.le_total k n with hkn | hkn
  · exact reachSet_mono (by omega) hk
  · have := reachSet_stable hstable (k - n)
    rw [show n + (k - n) = k by omega] at this
    rw [this] at hk
    exact reachSet_mono (by omega) hk

theorem bfsDist_le_of_mem {g : Graph} {a : PathAutomaton} {root x : SearchState}
    {n : Nat} (h : x ∈ reachSet g a root n) : bfsDist g a root x ≤ n :=
  Nat.find_le (Or.inl h)

theorem bfsDist_spec {g : Graph} {a : PathAutomaton} {root x : SearchState}
    (h : Reach g a root x) :
    x ∈ reachSet g a root (bfsDist g a root x) ∧
      bfsDist g a root x ≤ distBound g a := by
  have hle : bfsDist g a root x ≤ distBound g a :=
    bfsDist_le_of_mem (reachSet_saturates g a root x h)
  have hspec := Nat.find_spec (distEvidence g a root x)
  rcases hspec with h' | h'
  · exact ⟨h', hle⟩
  · rw [show Nat.find _ = bfsDist g a root x from rfl] at h'
    omega

theorem bfsDist_min {g : Graph} {a : PathAutomaton} {root x : SearchState}
    {k : Nat} (h : k < bfsDist g a root x) : x ∉ reachSet g a root k := by
  have := Nat.find_min (distEvidence g a root x) h
  intro hc
  exact this (Or.inl hc)

theorem bfsDist_root (g : Graph) (a : PathAutomaton) (root : SearchState) :
    bfsDist g a root root = 0 :=
  Nat.le_zero.1 (bfsDist_le_of_mem (List.mem_singleton.2 rfl))

theorem bfsDist_step_le {g : Graph} {a : PathAutomaton} {root w y : SearchState}
    (hw : Reach g a root w) (hy : y ∈ stepList g a w) :
    bfsDist g a root y ≤ bfsDist g a root w + 1 :=
  bfsDist_le_of_mem (reachSet_closed_step (bfsDist_spec hw).1 hy)

theorem bfsDist_pred {g : Graph} {a : PathAutomaton} {root x : SearchState}
    {e : Nat} (hx : Reach g a root x) (hd : bfsDist g a root x = e + 1) :
    ∃ w, Reach g a root w ∧ x ∈ stepList g a w ∧ bfsDist g a root w ≤ e := by
  have h1 := (bfsDist_spec hx).1
  rw [hd] at h1
  have h2 : x ∉ reachSet g a root e := bfsDist_min (by omega)
  rw [reachSet_succ] at h1
  rcases List.mem_append.1 h1 with h | h
  · exact absurd h h2
  · rw [List.mem_dedup] at h
    obtain ⟨h3, _⟩ := List.mem_filter.1 h
    obtain ⟨w, hw, hxw⟩ := List.mem_flatMap.1 h3
    exact ⟨w, reachSet_sound hw, hxw, bfsDist_le_of_mem hw⟩

theorem bfsDist_zero_eq_root {g : Graph} {a : PathAutomaton} {root x : SearchState}
    (hx : Reach g a root x) (hd : bfsDist g a root x = 0) : x = root := by
  have h1 := (bfsDist_spec hx).1
  rw [hd, reachSet_zero] at h1
  exact List.mem_singleton.1 h1

/-- Search states are dequeued for expansion in non-decreasing order of their
BFS distance from the root search state. -/
theorem drainAll_trace_pairwise (g : Graph) (a : PathAutomaton) (root : SearchState) :
    ∀ (n : Nat) (st : BfsState) (d : Nat), bfsMeasure g a st ≤ n →
      Inv g a root st → LevelInv g a root d st →
      List.Pairwise (fun x y => bfsDist g a root x ≤ bfsDist g a root y)
        (drainAll g a st).trace ∧
      (∀ x ∈ (drainAll g a st).trace, d ≤ bfsDist g a root x) := by
  intro n
  induction n with
  | zero =>
    intro st d h _ _
    rw [drainAll_nil g a st (openQ_eq_nil_of_measure_zero (Nat.le_zero.1 h))]
    exact ⟨List.Pairwise.nil, by simp⟩
  | succ n ih =>
    intro st d h hInv hLev
    cases hq : st.openQ with
    | nil =>
      rw [drainAll_nil g a st hq]
      exact ⟨List.Pairwise.nil, by simp⟩
    | cons cur rest =>
      obtain ⟨hLreach, hLbound, hLpair, hLvis⟩ := hLev
      rw [hq] at hLreach hLbound hLpair
      obtain ⟨dv, da, hv, ho, ha', hout, hdvN, hdaN, hdvF, hdaF, hInv'⟩ :=
        expandState_spec g a root st cur rest hq hInv
      have hm := expandState_measure_lt g a st cur rest hq
      have hcur_reach : Reach g a root cur := hLreach cur (List.mem_cons_self _ _)
      have hcur_bound := hLbound cur (List.mem_cons_self _ _)
      set e := bfsDist g a root cur with he_def
      have hcases : e = d ∨ e = d + 1 := by omega
      have hVe : ∀ z, Reach g a root z → bfsDist g a root z ≤ e → z ∈ st.visited := by
        rcases hcases with he | he
        · rw [he]
          exact hLvis
        · intro z hz hdz
          rcases Nat.lt_or_ge (bfsDist g a root z) (d + 1) with h' | h'
          · exact hLvis z hz (by omega)
          · have hdz' : bfsDist g a root z = d + 1 := by omega
            obtain ⟨w, hwreach, hzw, hwle⟩ := bfsDist_pred hz hdz'
            have hwvis : w ∈ st.visited := hLvis w hwreach hwle
            have hwnq : w ∉ st.openQ := by
              rw [hq]
              intro hc
              rcases List.mem_cons.1 hc with h'' | h''
              · rw [h''] at hwle
                omega
              · have := (List.pairwise_cons.1 hLpair).1 w h''
                have hwb := hLbound w (List.mem_cons_of_mem _ h'')
                omega
            exact hInv.closed w hwvis hwnq z hzw
      have hdv_dist : ∀ y ∈ dv, bfsDist g a root y = e + 1 ∧ Reach g a root y := by
        intro y hy
        have hstep := (hdvF y hy).2
        have hyreach : Reach g a root y := Relation.ReflTransGen.tail hcur_reach hstep
        have hyle := bfsDist_step_le hcur_reach hstep
        have hynv : y ∉ st.visited := (hdvF y hy).1
        have hgt : ¬ bfsDist g a root y ≤ e := fun hc => hynv (hVe y hyreach hc)
        exact ⟨by omega, hyreach⟩
      have hrest_bound : ∀ x ∈ rest,
          e ≤ bfsDist g a root x ∧ bfsDist g a root x ≤ e + 1 := by
        intro x hx
        have hb := hLbound x (List.mem_cons_of_mem _ hx)
        rcases hcases with he | he
        · exact ⟨by omega, by omega⟩
        · have := (List.pairwise_cons.1 hLpair).1 x hx
          exact ⟨this, by omega⟩
      have hLev' : LevelInv g a root e (expandState g a { st with openQ := rest } cur).1 := by
        refine ⟨?_, ?_, ?_, ?_⟩
        · intro x hx
          rw [ho] at hx
          rcases List.mem_append.1 hx with h' | h'
          · exact hLreach x (List.mem_cons_of_mem _ h')
          · exact (hdv_dist x h').2
        · intro x hx
          rw [ho] at hx
          rcases List.mem_append.1 hx with h' | h'
          · exact hrest_bound x h'
          · have := (hdv_dist x h').1
            exact ⟨by omega, by omega⟩
        · rw [ho]
          refine List.pairwise_append.2 ⟨(List.pairwise_cons.1 hLpair).2, ?_, ?_⟩
          · refine List.pairwise_of_forall_mem_list ?_
            intro x hx y hy
            have h1 := (hdv_dist x hx).1
            have h2 := (hdv_dist y hy).1
            omega
          · intro x hx y hy
            have h1 := (hrest_bound x hx).2
            have h2 := (hdv_dist y hy).1
            omega
        · intro z hz hdz
          rw [hv]
          exact List.mem_append_right _ (hVe z hz hdz)
      obtain ⟨ihp, ihb⟩ :=
        ih (expandState g a { st with openQ := rest } cur).1 e (by omega) hInv' hLev'
      rw [drainAll_cons g a st cur rest hq]
      refine ⟨List.pairwise_cons.2 ⟨?_, ihp⟩, ?_⟩
      · intro x hx
        exact ihb x hx
      · intro x hx
        rcases List.mem_cons.1 hx with h' | h'
        · rw [h']
          omega
        · have := ihb x h'
          omega

/-- The level invariant holds right after `begin`. -/
theorem beginRes_levelInv (g : Graph) (a : PathAutomaton) (s0 : Nat) :
    LevelInv g a ⟨s0, a.initial⟩ 0 (beginRes a s0).bfs := by
  have hroot : (beginRes a s0).bfs.openQ = [⟨s0, a.initial⟩] := rfl
  refine ⟨?_, ?_, ?_, ?_⟩
  · intro x hx
    rw [hroot, List.mem_singleton] at hx
    rw [hx]
    exact Relation.ReflTransGen.refl
  · intro x hx
    rw [hroot, List.mem_singleton] at hx
    rw [hx, bfsDist_root]
    omega
  · rw [hroot]
    exact List.pairwise_singleton _ _
  · intro z hz hdz
    have h0 : bfsDist g a ⟨s0, a.initial⟩ z = 0 := by omega
    have := bfsDist_zero_eq_root hz h0
    rw [this]
    exact (beginRes_inv g a s0).root_vis

/-- The dequeue order of one full enumeration is non-decreasing in BFS
distance. -/
theorem enum_trace_pairwise (g : Graph) (a : PathAutomaton) (s0 : Nat) :
    List.Pairwise
      (fun x y => bfsDist g a ⟨s0, a.initial⟩ x ≤ bfsDist g a ⟨s0, a.initial⟩ y)
      (drainAll g a (beginRes a s0).bfs).trace :=
  (drainAll_trace_pairwise g a ⟨s0, a.initial⟩ (bfsMeasure g a (beginRes a s0).bfs)
    (beginRes a s0).bfs 0 (Nat.le_refl _) (beginRes_inv g a s0)
    (beginRes_levelInv g a s0)).1

theorem exists_mem_scanForward {g : Graph} {l n m : Nat} :
    (∃ eid, (m, eid) ∈ scanForward g l n) ↔ EdgeRel g l n m := by
  unfold scanForward EdgeRel
  constructor
  · rintro ⟨eid, hp⟩
    obtain ⟨e, he, heq⟩ := List.mem_map.1 hp
    obtain ⟨he1, he2⟩ := List.mem_filter.1 he
    simp only [decide_eq_true_eq] at he2
    have hm : e.eto = m := by simpa using congrArg Prod.fst heq
    exact ⟨e, he1, he2.1, he2.2, hm⟩
  · rintro ⟨e, he, h1, h2, h3⟩
    refine ⟨e.eid, List.mem_map.2 ⟨e, List.mem_filter.2 ⟨he, ?_⟩, by rw [h3]⟩⟩
    simp [h1, h2]

theorem exists_mem_scanBackward {g : Graph} {l n m : Nat} :
    (∃ eid, (m, eid) ∈ scanBackward g l n) ↔ EdgeRel g l m n := by
  unfold scanBackward EdgeRel
  constructor
  · rintro ⟨eid, hp⟩
    obtain ⟨e, he, heq⟩ := List.mem_map.1 hp
    obtain ⟨he1, he2⟩ := List.mem_filter.1 he
    simp only [decide_eq_true_eq] at he2
    have hm : e.efrom = m := by simpa using congrArg Prod.fst heq
    exact ⟨e, he1, he2.1, hm, he2.2⟩
  · rintro ⟨e, he, h1, h2, h3⟩
    refine ⟨e.eid, List.mem_map.2 ⟨e, List.mem_filter.2 ⟨he, ?_⟩, by rw [h2]⟩⟩
    simp [h1, h3]

theorem stepList_starAut {g : Graph} {l : Nat} {x y : SearchState} :
    y ∈ stepList g (starAut l) x ↔
      x.astate = 0 ∧ y.astate = 0 ∧ EdgeRel g l x.node y.node := by
  rw [mem_stepList]
  constructor
  · rintro ⟨tm, htm, rfl⟩
    obtain ⟨ht, hsrc, eid, hp⟩ := mem_expansionList.1 htm
    have ht0 : tm.1 = ⟨0, l, false, 0⟩ := by simpa [starAut] using ht
    rw [ht0] at hsrc hp
    refine ⟨hsrc.symm, by simp [ht0], ?_⟩
    have : (tm.2, eid) ∈ scanForward g l x.node := by simpa [setIter] using hp
    exact exists_mem_scanForward.1 ⟨eid, this⟩
  · rintro ⟨hx, hy, he⟩
    obtain ⟨eid, hp⟩ := exists_mem_scanForward.2 he
    refine ⟨(⟨0, l, false, 0⟩, y.node), mem_expansionList.2 ⟨by simp [starAut],
      by simpa using hx.symm, eid, by simpa [setIter] using hp⟩, ?_⟩
    cases y
    simp only at hy ⊢
    rw [hy]

theorem stepList_starAutRev {g : Graph} {l : Nat} {x y : SearchState} :
    y ∈ stepList g (starAutRev l) x ↔
      x.astate = 0 ∧ y.astate = 0 ∧ EdgeRel g l y.node x.node := by
  rw [mem_stepList]
  constructor
  · rintro ⟨tm, htm, rfl⟩
    obtain ⟨ht, hsrc, eid, hp⟩ := mem_expansionList.1 htm
    have ht0 : tm.1 = ⟨0, l, true, 0⟩ := by simpa [starAutRev] using ht
    rw [ht0] at hsrc hp
    refine ⟨hsrc.symm, by simp [ht0], ?_⟩
    have : (tm.2, eid) ∈ scanBackward g l x.node := by simpa [setIter] using hp
    exact exists_mem_scanBackward.1 ⟨eid, this⟩
  · rintro ⟨hx, hy, he⟩
    obtain ⟨eid, hp⟩ := exists_mem_scanBackward.2 he
    refine ⟨(⟨0, l, true, 0⟩, y.node), mem_expansionList.2 ⟨by simp [starAutRev],
      by simpa using hx.symm, eid, by simpa [setIter] using hp⟩, ?_⟩
    cases y
    simp only at hy ⊢
    rw [hy]

theorem reach_starAut {g : Graph} {l u v q : Nat} :
    Reach g (starAut l) ⟨u, 0⟩ ⟨v, q⟩ ↔
      q = 0 ∧ Relation.ReflTransGen (EdgeRel g l) u v := by
  constructor
  · intro h
    have haux : ∀ z, Reach g (starAut l) ⟨u, 0⟩ z →
        z.astate = 0 ∧ Relation.ReflTransGen (EdgeRel g l) u z.node := by
      intro z hz
      unfold Reach at hz
      induction hz with
      | refl => exact ⟨rfl, Relation.ReflTransGen.refl⟩
      | tail _ hstep ih =>
        obtain ⟨_, hc0, her⟩ := stepList_starAut.1 hstep
        exact ⟨hc0, Relation.ReflTransGen.tail ih.2 her⟩
    exact haux ⟨v, q⟩ h
  · rintro ⟨rfl, h⟩
    induction h with
    | refl => exact Relation.ReflTransGen.refl
    | tail _ her ih =>
      exact Relation.ReflTransGen.tail ih (stepList_starAut.2 ⟨rfl, rfl, her⟩)

theorem reach_starAutRev {g : Graph} {l u v q : Nat} :
    Reach g (starAutRev l) ⟨u, 0⟩ ⟨v, q⟩ ↔
      q = 0 ∧ Relation.ReflTransGen (fun p r => EdgeRel g l r p) u v := by
  constructor
  · intro h
    have haux : ∀ z, Reach g (starAutRev l) ⟨u, 0⟩ z →
        z.astate = 0 ∧ Relation.ReflTransGen (fun p r => EdgeRel g l r p) u z.node := by
      intro z hz
      unfold Reach at hz
      induction hz with
      | refl => exact ⟨rfl, Relation.ReflTransGen.refl⟩
      | tail _ hstep ih =>
        obtain ⟨_, hc0, her⟩ := stepList_starAutRev.1 hstep
        exact ⟨hc0, Relation.ReflTransGen.tail ih.2 her⟩
    exact haux ⟨v, q⟩ h
  · rintro ⟨rfl, h⟩
    induction h with
    | refl => exact Relation.ReflTransGen.refl
    | tail _ her ih =>
      exact Relation.ReflTransGen.tail ih (stepList_starAutRev.2 ⟨rfl, rfl, her⟩)

theorem rtg_flip {α : Type} {r : α → α → Prop} {u v : α} :
    Relation.ReflTransGen (fun p q => r q p) u v ↔ Relation.ReflTransGen r v u := by
  constructor
  · intro h
    induction h with
    | refl => exact Relation.ReflTransGen.refl
    | tail _ hstep ih => exact Relation.ReflTransGen.head hstep ih
  · intro h
    induction h using Relation.ReflTransGen.head_induction_on with
    | refl => exact Relation.ReflTransGen.refl
    | head hstep _ ih => exact Relation.ReflTransGen.tail ih hstep

theorem enumEnds_mem_iff (g : Graph) (a : PathAutomaton) (s0 m : Nat) :
    m ∈ enumEnds g a s0 ↔ Accepted g a s0 m := by
  constructor
  · intro h
    obtain ⟨ans, hans, rfl⟩ := List.mem_map.1 h
    exact enum_sound g a s0 ans hans
  · exact enum_complete g a s0 m

theorem accepted_starAut_iff {g : Graph} {l u m : Nat} :
    Accepted g (starAut l) u m ↔ Relation.ReflTransGen (EdgeRel g l) u m := by
  unfold Accepted
  constructor
  · rintro ⟨q, hq, hr⟩
    have hq0 : q = 0 := by simpa [starAut] using hq
    rw [hq0] at hr
    exact (reach_starAut.1 hr).2
  · intro h
    exact ⟨0, by simp [starAut], reach_starAut.2 ⟨rfl, h⟩⟩

theorem accepted_starAutRev_iff {g : Graph} {l u m : Nat} :
    Accepted g (starAutRev l) u m ↔ Relation.ReflTransGen (EdgeRel g l) m u := by
  unfold Accepted
  constructor
  · rintro ⟨q, hq, hr⟩
    have hq0 : q = 0 := by simpa [starAutRev] using hq
    rw [hq0] at hr
    exact rtg_flip.1 (reach_starAutRev.1 hr).2
  · intro h
    exact ⟨0, by simp [starAutRev], reach_starAutRev.2 ⟨rfl, rtg_flip.2 h⟩⟩

theorem nextCall_exhausted (g : Graph) (a : PathAutomaton) (c : Nat) :
    nextCall g a (exhaustedConfig c) = (none, exhaustedConfig c) := by
  rw [nextCall_loop g a _ rfl rfl]
  cases hfuel : bfsMeasure g a (exhaustedConfig c).bfs with
  | zero => rfl
  | succ n => exact nextLoopF_succ_nil g a n _ rfl

theorem callsOutput_exhausted (g : Graph) (a : PathAutomaton) (c : Nat) :
    ∀ k, callsOutput g a k (exhaustedConfig c) = [] := by
  intro k
  cases k with
  | zero => rfl
  | succ k => rw [callsOutput_succ, nextCall_exhausted]

/-- C1 — Soundness of enumeration: for every graph, automaton and resolved
start node, every answer published by any `next()` call during one enumeration
names an end node that has a genuine label path from the start node accepted by
the automaton (a product-graph run from the initial state to an accepting
state). -/
theorem C1_soundness (g : Graph) (a : PathAutomaton) (s0 : Nat) (k : Nat)
    (ans : Answer) (h : ans ∈ callsOutput g a k (beginRes a s0)) :
    Accepted g a s0 ans.endNode :=
  enum_sound g a s0 ans ((callsOutput_sublist_enum g a s0 k).subset h)

theorem C1_soundness_witness :
    (Answer.mk 1 [1] ∈ callsOutput sampleGraph (starAut 7) 5 (beginRes (starAut 7) 0)) ∧
      Accepted sampleGraph (starAut 7) 0 (Answer.mk 1 [1]).endNode :=
  ⟨by decide, C1_soundness sampleGraph (starAut 7) 0 5 (Answer.mk 1 [1]) (by decide)⟩

/-- C2 — Completeness of enumeration: for every finite graph, automaton and
resolved existing start node, every node with an accepted label path from the
start node appears among the end nodes returned before `next()` first returns
false, exactly once. -/
theorem C2_completeness (g : Graph) (a : PathAutomaton) (s0 m : Nat)
    (_hs0 : s0 ∈ g.nodeList) (hm : Accepted g a s0 m) :
    (enumEnds g a s0).count m = 1 :=
  List.count_eq_one_of_mem (enumEnds_nodup g a s0) (enum_complete g a s0 m hm)

theorem C2_completeness_witness :
    (0 ∈ sampleGraph.nodeList) ∧ Accepted sampleGraph (starAut 7) 0 1 ∧
      (enumEnds sampleGraph (starAut 7) 0).count 1 = 1 :=
  ⟨by decide, ⟨0, by decide, Relation.ReflTransGen.single (by decide)⟩,
    C2_completeness sampleGraph (starAut 7) 0 1 (by decide)
      ⟨0, by decide, Relation.ReflTransGen.single (by decide)⟩⟩

/-- C3 — Termination with a state-space bound: for every well-formed finite
graph and automaton, the full enumeration terminates (the frontier drains to
empty and further calls change nothing), no search state is dequeued for
expansion twice, and the number of expansions is at most
|graph nodes| · |automaton states|. -/
theorem C3_termination (g : Graph) (a : PathAutomaton) (s0 : Nat)
    (hg : WFGraph g) (ha : WFAutomaton a) (hs0 : s0 ∈ g.nodeList) :
    (drainAll g a (beginRes a s0).bfs).final.openQ = [] ∧
      (∀ k, enumBudget g a s0 ≤ k →
        callsOutput g a k (beginRes a s0) = enumOutputs g a s0) ∧
      (drainAll g a (beginRes a s0).bfs).trace.Nodup ∧
      (drainAll g a (beginRes a s0).bfs).trace.length ≤
        g.nodeList.length * a.states.length := by
  obtain ⟨t1, t2⟩ := enum_trace_bound g a s0 hg ha hs0
  refine ⟨drainAll_final_openQ g a (bfsMeasure g a (beginRes a s0).bfs) _ (Nat.le_refl _),
    ?_, t1, t2⟩
  intro k hk
  rw [callsOutput_beginRes g a s0 k hk, ← enumOutputs_eq]

theorem C3_termination_witness :
    WFGraph sampleGraph ∧ WFAutomaton (starAut 7) ∧ (0 ∈ sampleGraph.nodeList) ∧
      ((drainAll sampleGraph (starAut 7) (beginRes (starAut 7) 0).bfs).final.openQ = [] ∧
        (∀ k, enumBudget sampleGraph (starAut 7) 0 ≤ k →
          callsOutput sampleGraph (starAut 7) k (beginRes (starAut 7) 0) =
            enumOutputs sampleGraph (starAut 7) 0) ∧
        (drainAll sampleGraph (starAut 7) (beginRes (starAut 7) 0).bfs).trace.Nodup ∧
        (drainAll sampleGraph (starAut 7) (beginRes (starAut 7) 0).bfs).trace.length ≤
          sampleGraph.nodeList.length * (starAut 7).states.length) :=
  ⟨by unfold WFGraph; decide, by unfold WFAutomaton; decide, by decide,
    C3_termination sampleGraph (starAut 7) 0 (by unfold WFGraph; decide)
      (by unfold WFAutomaton; decide) (by decide)⟩

/-- C4 — No duplicate answers: across one enumeration, however many `next()`
calls are made, no end node id is emitted twice, even when a node is reachable
via multiple accepting paths or multiple accepting automaton states. -/
theorem C4_no_duplicates (g : Graph) (a : PathAutomaton) (s0 : Nat) (k : Nat) :
    ((callsOutput g a k (beginRes a s0)).map (fun ans => ans.endNode)).Nodup :=
  (enumEnds_nodup g a s0).sublist
    ((callsOutput_sublist_enum g a s0 k).map (fun ans => ans.endNode))

/-- C5 — Empty-path rule: when the automaton's initial state is accepting, the
very first `next()` call returns the start node itself, with the path variable
bound to the empty path, before any BFS expansion; it is also the head of the
full enumeration. -/
theorem C5_empty_path (g : Graph) (a : PathAutomaton) (s0 : Nat)
    (hf : a.initial ∈ a.finals) :
    nextCall g a (beginRes a s0) =
      (some (Answer.mk s0 []), { beginRes a s0 with pendingSelf := false }) ∧
      (enumOutputs g a s0).head? = some (Answer.mk s0 []) := by
  constructor
  · rw [nextCall_self g a (beginRes a s0) (by rw [beginRes_pendingSelf]; simp [hf])]
    rfl
  · rw [enumOutputs_eq, if_pos hf]
    rfl

theorem C5_empty_path_witness :
    ((starAut 7).initial ∈ (starAut 7).finals) ∧
      (nextCall sampleGraph (starAut 7) (beginRes (starAut 7) 0) =
        (some (Answer.mk 0 []), { beginRes (starAut 7) 0 with pendingSelf := false }) ∧
        (enumOutputs sampleGraph (starAut 7) 0).head? = some (Answer.mk 0 [])) :=
  ⟨by decide, C5_empty_path sampleGraph (starAut 7) 0 (by decide)⟩

/-- C6 — Constant-not-found behaviour: when the start identity is a constant
node id absent from the node index, `begin` succeeds (no exception) with a
permanently exhausted operator: every `next()` call, including the first,
returns false and leaves the state unchanged. -/
theorem C6_constant_not_found (g : Graph) (a : PathAutomaton) (c : Nat)
    (b : Nat → Option Nat) (hc : c ∉ g.nodeList) :
    beginOp g a (StartId.constId c) b = some (exhaustedConfig c) ∧
      nextCall g a (exhaustedConfig c) = (none, exhaustedConfig c) ∧
      (∀ k, callsOutput g a k (exhaustedConfig c) = []) := by
  refine ⟨?_, nextCall_exhausted g a c, callsOutput_exhausted g a c⟩
  simp [beginOp, hc]

theorem C6_constant_not_found_witness :
    (99 ∉ sampleGraph.nodeList) ∧
      (beginOp sampleGraph (starAut 7) (StartId.constId 99) (fun _ => none) =
          some (exhaustedConfig 99) ∧
        nextCall sampleGraph (starAut 7) (exhaustedConfig 99) =
          (none, exhaustedConfig 99) ∧
        (∀ k, callsOutput sampleGraph (starAut 7) k (exhaustedConfig 99) = [])) :=
  ⟨by decide, C6_constant_not_found sampleGraph (starAut 7) 99 (fun _ => none) (by decide)⟩

/-- C7 — Direction symmetry: for every graph and label, evaluating the
start-anchored pattern and the rewritten end-anchored pattern (the inverse
automaton with the direction flag inverted and start/end swapped) produce the
same result sets modulo the swapped roles: the rewritten evaluation from `q`
returns `x` exactly when the forward evaluation from `x` returns `q`. -/
theorem C7_direction_symmetry (g : Graph) (l q x : Nat) :
    x ∈ enumEnds g (starAutRev l) q ↔ q ∈ enumEnds g (starAut l) x := by
  rw [enumEnds_mem_iff, enumEnds_mem_iff, accepted_starAutRev_iff, accepted_starAut_iff]

/-- C8 — BFS order invariant: the frontier is a FIFO queue, so across one full
enumeration search states are dequeued for expansion in non-decreasing order of
their BFS distance (the length of the shortest discovery path) from the root
search state. -/
theorem C8_bfs_order (g : Graph) (a : PathAutomaton) (s0 : Nat) :
    List.Pairwise
      (fun x y => bfsDist g a ⟨s0, a.initial⟩ x ≤ bfsDist g a ⟨s0, a.initial⟩ y)
      (drainAll g a (beginRes a s0).bfs).trace :=
  enum_trace_pairwise g a s0

end PropertyPathBFS

namespace ScanRanges

/-- C9 — A `Term` scan range always denotes the degenerate single-value
interval [object id, object id]: `get_min` and `get_max` both return the
wrapped object id, independently of the binding argument. -/
theorem C9_term_degenerate_range (o : ObjectId) (b b' : BindingId) :
    (Term.mk o).get_min b = o.id ∧ (Term.mk o).get_max b = o.id ∧
      (Term.mk o).get_min b = (Term.mk o).get_min b' ∧
      (Term.mk o).get_max b = (Term.mk o).get_max b' :=
  ⟨rfl, rfl, rfl, rfl⟩

/-- C10 — `Term::try_assign` is a no-op: for every binding and object id, both
the binding and the term are returned completely unchanged. -/
theorem C10_try_assign_noop (t : Term) (b : BindingId) (o : ObjectId) :
    Term.try_assign t b o = (t, b) ∧ (Term.try_assign t b o).2 = b ∧
      (Term.try_assign t b o).1 = t :=
  ⟨rfl, rfl, rfl⟩

end ScanRanges
